import Mathlib

/-!
# dynogels: schema compilation and type mapping

A shallow embedding of `lib/schema.js` and of the model registry of
`lib/index.js`.

JavaScript values are modelled by `JsVal`.  A plain object is an association
list from property names to values; property lookup returns the first entry
with the given name and assignment replaces that entry or appends a new one.
Real objects hold every property name once, which the predicate `KeysNodup`
expresses where a statement needs it.

The Joi library is not part of the repository.  Its schemas are modelled by
`JoiSchema`, reduced to what `describe()` shows to the type mapper, and its
`validate` by the list of violations of the rules that `lib/schema.js` writes
down, together with the value it hands back.
-/

namespace Dynogels

/-! ## JavaScript values -/

/-- A JavaScript value.  `func` stands for a function value, told apart by an
identifier; `obj` is a plain object. -/
inductive JsVal where
  | undefined : JsVal
  | null : JsVal
  | bool (b : Bool) : JsVal
  | num (n : Int) : JsVal
  | str (s : String) : JsVal
  | func (id : Nat) : JsVal
  | arr (xs : List JsVal) : JsVal
  | obj (kvs : List (String × JsVal)) : JsVal
  deriving Repr, Inhabited

/-- What a JavaScript operation that throws leaves behind. -/
inductive JsError where
  | typeError (msg : String) : JsError
  | outOfFuel : JsError
  deriving Repr, DecidableEq

/-- The value of the first entry named `k`, if any. -/
def lookup {α : Type} (k : String) : List (String × α) → Option α
  | [] => none
  | (k', v) :: rest => if k' = k then some v else lookup k rest

/-- Assignment `o[k] = v`: replaces the entry named `k` or appends one. -/
def setProp {α : Type} (k : String) (v : α) : List (String × α) → List (String × α)
  | [] => [(k, v)]
  | (k', v') :: rest => if k' = k then (k', v) :: rest else (k', v') :: setProp k v rest

/-- The property names of an object, in order. -/
def keysOf {α : Type} (kvs : List (String × α)) : List String := kvs.map Prod.fst

/-- Every property name occurs once. -/
def KeysNodup {α : Type} (kvs : List (String × α)) : Prop := (keysOf kvs).Nodup

instance {α : Type} (kvs : List (String × α)) : Decidable (KeysNodup kvs) := by
  unfold KeysNodup; infer_instance

namespace JsVal

/-- Lodash `_.isPlainObject`. -/
def isPlainObject : JsVal → Bool
  | obj _ => true
  | _ => false

/-- Lodash `_.isString`. -/
def isString : JsVal → Bool
  | str _ => true
  | _ => false

/-- Strict equality `v === s` with a string literal `s`. -/
def isStr (v : JsVal) (s : String) : Bool :=
  match v with
  | str t => t == s
  | _ => false

/-- JavaScript truthiness. -/
def truthy : JsVal → Bool
  | undefined => false
  | null => false
  | bool b => b
  | num n => n != 0
  | str s => s != ""
  | _ => true

/-- Property read `v.k` for a name `k` that is none of the built-in properties
of strings, arrays and functions: it throws on `undefined` and `null`, reads the
entry of a plain object, and is `undefined` everywhere else. -/
def prop (v : JsVal) (k : String) : Except JsError JsVal :=
  match v with
  | undefined => .error (.typeError ("Cannot read properties of undefined (reading " ++ k ++ ")"))
  | null => .error (.typeError ("Cannot read properties of null (reading " ++ k ++ ")"))
  | obj kvs => .ok ((lookup k kvs).getD undefined)
  | _ => .ok undefined

/-- Pairs each element with its index, as a property name. -/
def indexed (xs : List JsVal) : List (String × JsVal) :=
  (List.range xs.length).zip xs |>.map fun p => (toString p.1, p.2)

/-- The (key, value) pairs that lodash's collection functions (`_.reduce`,
`_.find`, `_.mapValues`) visit: the entries of an object, the indexed elements
of an array, the characters of a string, and nothing for any other value. -/
def entries : JsVal → List (String × JsVal)
  | obj kvs => kvs
  | arr xs => indexed xs
  | str s => indexed (s.toList.map fun c => str (String.singleton c))
  | _ => []

end JsVal

open JsVal

/-! ## The type mapper (`lib/schema.js`, lines 47-92) -/

/-- Source `internals.wireType`: the `switch` over the structural kind. -/
def wireType (key : JsVal) : JsVal :=
  if key.isStr "string" then .str "S"
  else if key.isStr "date" then .str "DATE"
  else if key.isStr "number" then .str "N"
  else if key.isStr "boolean" then .str "BOOL"
  else if key.isStr "binary" then .str "B"
  else if key.isStr "array" then .str "L"
  else .null

/-- Lodash `_.find(coll, (data) => _.isString(data.dynamoType))` over the
values of `coll`, in order; `undefined` when none matches. -/
def findDynamoMeta : List (String × JsVal) → Except JsError JsVal
  | [] => .ok .undefined
  | (_, m) :: rest =>
    match m.prop "dynamoType" with
    | .error e => .error e
    | .ok t => if t.isString then .ok m else findDynamoMeta rest

/-- Source `internals.findDynamoTypeMetadata`. -/
def findDynamoTypeMetadata (data : JsVal) : Except JsError JsVal :=
  match data.prop "meta" with
  | .error e => .error e
  | .ok metas =>
    match findDynamoMeta metas.entries with
    | .error e => .error e
    | .ok found =>
      if found.truthy then found.prop "dynamoType"
      else
        match data.prop "type" with
        | .error e => .error e
        | .ok t => .ok (wireType t)

/-- The value that the callback of `parseDynamoTypes` assigns to `result[key]`
for the entry `val`: the recursive call `recur` on `val.children` when
`val.type === 'object' && _.isPlainObject(val.children)`, the tag of
`findDynamoTypeMetadata` otherwise. -/
def entryType (recur : JsVal → Except JsError JsVal) (val : JsVal) : Except JsError JsVal :=
  match val.prop "type" with
  | .error e => .error e
  | .ok t =>
    if t.isStr "object" then
      match val.prop "children" with
      | .error e => .error e
      | .ok children =>
        if children.isPlainObject then recur children else findDynamoTypeMetadata val
    else findDynamoTypeMetadata val

/-- The `_.reduce(data, (result, val, key) => ..., {})` loop of
`parseDynamoTypes`, with the recursive call passed in as `recur`. -/
def reduceTypes (recur : JsVal → Except JsError JsVal) :
    List (String × JsVal) → List (String × JsVal) → Except JsError (List (String × JsVal))
  | [], result => .ok result
  | (key, val) :: rest, result =>
    match entryType recur val with
    | .error e => .error e
    | .ok r => reduceTypes recur rest (setProp key r result)

/-- Whether `parseDynamoTypes` takes its first branch: `_.isPlainObject(data) &&
data.type === 'object' && _.isPlainObject(data.children)`. -/
def isObjectWithChildren (data : JsVal) : Bool :=
  match data with
  | .obj kvs =>
    ((lookup "type" kvs).getD .undefined).isStr "object" &&
      ((lookup "children" kvs).getD .undefined).isPlainObject
  | _ => false

/-- The value of `data.children` for a plain object `data`. -/
def childrenOf (data : JsVal) : JsVal :=
  match data with
  | .obj kvs => (lookup "children" kvs).getD .undefined
  | _ => .undefined

/-- Source `internals.parseDynamoTypes`, with the depth of the recursion bounded
by `fuel`. -/
def parseDynamoTypesFuel : Nat → JsVal → Except JsError JsVal
  | 0, _ => .error .outOfFuel
  | fuel + 1, data =>
    if isObjectWithChildren data then
      parseDynamoTypesFuel fuel (childrenOf data)
    else
      match reduceTypes (parseDynamoTypesFuel fuel) data.entries [] with
      | .error e => .error e
      | .ok mapped => .ok (.obj mapped)

mutual
/-- Nesting depth of a value. -/
def JsVal.depth : JsVal → Nat
  | .arr xs => depthList xs + 1
  | .obj kvs => depthEntries kvs + 1
  | _ => 0
/-- Largest depth among the elements of an array. -/
def depthList : List JsVal → Nat
  | [] => 0
  | x :: xs => max x.depth (depthList xs)
/-- Largest depth among the property values of an object. -/
def depthEntries : List (String × JsVal) → Nat
  | [] => 0
  | (_, v) :: rest => max v.depth (depthEntries rest)
end

/-- Source `internals.parseDynamoTypes`: every recursive call is on a value
nested inside `data`, so the depth of `data` is fuel enough. -/
def parseDynamoTypes (data : JsVal) : Except JsError JsVal :=
  parseDynamoTypesFuel (data.depth + 1) data

/-- The entry that the type mapper files for one attribute described by
`val`. -/
def attributeType (val : JsVal) : Except JsError JsVal :=
  entryType parseDynamoTypes val

/-! ## Joi schemas, as far as `lib/schema.js` uses them -/

/-- A Joi schema object, reduced to what the type mapper reads from its
description: the structural kind (`type`), the objects attached with `.meta()`,
and, for an object schema, its keys (`none` when no keys were ever set, which
is how `Joi.object()` starts). -/
inductive JoiSchema where
  | mk (type : String) (metas : List (List (String × JsVal)))
      (children : Option (List (String × JoiSchema))) : JoiSchema
  deriving Repr, Inhabited

namespace JoiSchema

/-- The structural kind of a schema. -/
def type : JoiSchema → String
  | mk t _ _ => t

/-- The objects attached with `.meta()`, oldest first. -/
def metas : JoiSchema → List (List (String × JsVal))
  | mk _ m _ => m

/-- The keys of an object schema. -/
def children : JoiSchema → Option (List (String × JoiSchema))
  | mk _ _ c => c

/-- Joi `any.meta(m)`: appends `m` to the attached objects. -/
def addMeta (s : JoiSchema) (m : List (String × JsVal)) : JoiSchema :=
  mk s.type (s.metas ++ [m]) s.children

/-- Joi `object.keys(schema)`: an empty `schema` resets the keys to none
allowed, a non-empty one replaces the keys it names and adds the others.  Only
object schemas have the method, so the call throws on any other kind. -/
def setKeys (s : JoiSchema) (schema : List (String × JoiSchema)) : Except JsError JoiSchema :=
  if s.type = "object" then
    match schema with
    | [] => .ok (mk s.type s.metas (some []))
    | _ :: _ =>
      .ok (mk s.type s.metas
        (some (((s.children.getD []).filter fun c => !(keysOf schema).contains c.1) ++ schema)))
  else .error (.typeError "this._modelSchema.keys is not a function")

end JoiSchema

mutual
/-- Joi `schema.describe()`: a plain object with `type`, with `meta` when
objects are attached, and with `children` when keys are set. -/
def JoiSchema.describe : JoiSchema → JsVal
  | .mk t m none =>
    .obj (("type", .str t) :: (if m.isEmpty then [] else [("meta", .arr (m.map .obj))]))
  | .mk t m (some cs) =>
    .obj (("type", .str t) :: ((if m.isEmpty then [] else [("meta", .arr (m.map .obj))]) ++
      [("children", .obj (describeChildren cs))]))
/-- The `children` property of a description: each key with the description of
its schema. -/
def describeChildren : List (String × JoiSchema) → List (String × JsVal)
  | [] => []
  | (k, c) :: rest => (k, c.describe) :: describeChildren rest
end

/-- The Joi factory functions the source calls. -/
def Joi.object : JoiSchema := .mk "object" [] none
/-- Joi `Joi.date()`. -/
def Joi.date : JoiSchema := .mk "date" [] none
/-- Joi `Joi.string()`. -/
def Joi.string : JoiSchema := .mk "string" [] none
/-- Joi `Joi.number()`. -/
def Joi.number : JoiSchema := .mk "number" [] none
/-- Joi `Joi.boolean()`. -/
def Joi.boolean : JoiSchema := .mk "boolean" [] none
/-- Joi `Joi.binary()`. -/
def Joi.binary : JoiSchema := .mk "binary" [] none
/-- Joi `Joi.array()`; `.items(...)` does not change what the type mapper reads. -/
def Joi.array : JoiSchema := .mk "array" [] none

/-- Source `Schema.types.stringSet`. -/
def Schema.types.stringSet : JoiSchema := Joi.array.addMeta [("dynamoType", .str "SS")]
/-- Source `Schema.types.numberSet`. -/
def Schema.types.numberSet : JoiSchema := Joi.array.addMeta [("dynamoType", .str "NS")]
/-- Source `Schema.types.binarySet`. -/
def Schema.types.binarySet : JoiSchema := Joi.array.addMeta [("dynamoType", .str "BS")]

/-! ## The configuration and its validation (`lib/schema.js`, lines 9-45) -/

/-- The `tableName` of a config: a literal name or a function returning it. -/
inductive TableName where
  | literal (s : String) : TableName
  | resolver (id : Nat) : TableName
  deriving Repr, DecidableEq

/-- The `createdAt` / `updatedAt` option of a config: left out, a field name,
or a boolean. -/
inductive TimestampOpt where
  | absent : TimestampOpt
  | name (s : String) : TimestampOpt
  | flag (b : Bool) : TimestampOpt
  deriving Repr, DecidableEq

namespace TimestampOpt

/-- JavaScript truthiness of the option. -/
def truthy : TimestampOpt → Bool
  | absent => false
  | name s => s != ""
  | flag b => b

/-- Lodash `_.isString`. -/
def isString : TimestampOpt → Bool
  | name _ => true
  | _ => false

/-- The comparison `x !== false`. -/
def notFalse : TimestampOpt → Bool
  | flag false => false
  | _ => true

end TimestampOpt

/-- One entry of `config.indexes`.  A property that is left out is `none`. -/
structure IndexDecl where
  hashKey : Option String
  rangeKey : Option String
  type : Option String
  name : Option String
  projection : Option (List (String × JsVal))
  readCapacity : Option Int
  writeCapacity : Option Int
  deriving Repr, Inhabited

/-- The `schema` of a config: a plain object from attribute names to Joi
schemas (a nested plain object counts as the object schema Joi compiles it
to), or a Joi schema itself. -/
inductive SchemaDecl where
  | plain (fields : List (String × JoiSchema)) : SchemaDecl
  | joi (s : JoiSchema) : SchemaDecl
  deriving Repr, Inhabited

/-- The config object handed to `new Schema(config)`.  A property that is left
out is `none` (`absent` for the timestamp names).  The `log` property, which
the constructor does not read, is left out. -/
structure Config where
  hashKey : Option String
  rangeKey : Option String
  tableName : Option TableName
  indexes : Option (List IndexDecl)
  schema : Option SchemaDecl
  timestamps : Option Bool
  createdAt : TimestampOpt
  updatedAt : TimestampOpt
  validation : Option (List (String × JsVal))
  deriving Repr

/-- Joi `Joi.string()` on an optional or required property: an absent value
violates `required()`, and the empty string is never allowed. -/
def stringViolations (path : String) (required : Bool) (v : Option String) : List String :=
  match v with
  | none => if required then [path ++ " is required"] else []
  | some s => if s = "" then [path ++ " is not allowed to be empty"] else []

/-- Joi `Joi.number().when('type', { is: 'global', then: Joi.optional(),
otherwise: Joi.forbidden() })`. -/
def capacityViolations (path : String) (type : Option String) (v : Option Int) : List String :=
  if type = some "global" then []
  else if v.isSome then [path ++ " is not allowed"] else []

/-- Source `internals.secondaryIndexSchema`, applied to one index declaration
with the table's hash key as the context `$hashKey`: the violations found. -/
def secondaryIndexSchema (contextHashKey : Option String) (d : IndexDecl) : List String :=
  (match d.type with
    | none => ["type is required"]
    | some t => if t = "local" ∨ t = "global" then [] else ["type must be one of [local, global]"])
  ++ (if d.type = some "local" then
        (match d.hashKey with
          | none => []
          | some k => if some k = contextHashKey then [] else ["hashKey must be one of [context:hashKey]"])
      else stringViolations "hashKey" true d.hashKey)
  ++ (if d.type = some "local" then stringViolations "rangeKey" true d.rangeKey
      else stringViolations "rangeKey" false d.rangeKey)
  ++ stringViolations "name" true d.name
  ++ capacityViolations "readCapacity" d.type d.readCapacity
  ++ capacityViolations "writeCapacity" d.type d.writeCapacity

/-- The option names that `configSchema` lists under `validation`. -/
def validationKeys : List String :=
  ["abortEarly", "convert", "allowUnknown", "skipFunctions", "stripUnknown",
    "language", "presence", "strip", "noDefaults"]

/-- The violations `configSchema` finds in the keys it visits before
`timestamps`: `hashKey`, `rangeKey`, `tableName`, `indexes` (`schema` is any
object). -/
def configViolationsBeforeTimestamps (config : Config) : List String :=
  stringViolations "hashKey" true config.hashKey
  ++ stringViolations "rangeKey" false config.rangeKey
  ++ (match config.tableName with
      | some (.literal "") => ["tableName is not allowed to be empty"]
      | _ => [])
  ++ ((config.indexes.getD []).map (secondaryIndexSchema config.hashKey)).flatten

/-- The violations `configSchema` finds in the keys it visits after
`timestamps`: an empty `createdAt` or `updatedAt` name, and an option name under
`validation` that is not listed. -/
def configViolationsAfterTimestamps (config : Config) : List String :=
  (match config.createdAt with
    | .name "" => ["createdAt is not allowed to be empty"]
    | _ => [])
  ++ (match config.updatedAt with
      | .name "" => ["updatedAt is not allowed to be empty"]
      | _ => [])
  ++ ((keysOf (config.validation.getD [])).filter fun k => !validationKeys.contains k).map
      fun k => "validation." ++ k ++ " is not allowed"

/-- Source `internals.configSchema`: the violations found in a config. -/
def configSchema (config : Config) : List String :=
  configViolationsBeforeTimestamps config ++ configViolationsAfterTimestamps config

/-- The object that Joi's `schema.validate(value, options)` returns: it holds
the error, if any, next to the value, and nothing is thrown. -/
structure ValidationResult where
  error : Option String
  value : Config
  deriving Repr

/-- The call `internals.configSchema.validate(config, { context })`.  Joi stops
at the first violation, so the default `false` of `timestamps` is filled in
only when no earlier key is in violation. -/
def configSchema.validate (config : Config) : ValidationResult :=
  { error := (configSchema config).head?
    value :=
      if (configViolationsBeforeTimestamps config).isEmpty then
        { config with timestamps := some (config.timestamps.getD false) }
      else config }

/-! ## The compiled schema (`lib/schema.js`, lines 94-157) -/

/-- The object that `new Schema(config)` builds. -/
structure Schema where
  secondaryIndexes : List (String × IndexDecl)
  globalIndexes : List (String × IndexDecl)
  validationOptions : Option (List (String × JsVal))
  hashKey : Option String
  rangeKey : Option String
  tableName : Option TableName
  timestamps : Option Bool
  createdAt : TimestampOpt
  updatedAt : TimestampOpt
  _modelSchema : JoiSchema
  _modelDatatypes : JsVal
  deriving Repr

/-- Lodash `_.filter(indexes, { type: t })`. -/
def filterType (t : String) (indexes : List IndexDecl) : List IndexDecl :=
  indexes.filter fun d => d.type == some t

/-- The property name under which `_.keyBy(..., 'name')` files a declaration;
a missing name reads as `undefined`. -/
def nameKey (d : IndexDecl) : String := d.name.getD "undefined"

/-- Lodash `_.keyBy(indexes, 'name')`: a later declaration takes the place of
an earlier one with the same name. -/
def keyByName (indexes : List IndexDecl) : List (String × IndexDecl) :=
  indexes.foldl (fun result d => setProp (nameKey d) d result) []

/-- Lines 116-120: the logical schema before the timestamp fields. -/
def baseModelSchema (schema : Option SchemaDecl) : Except JsError JoiSchema :=
  match schema with
  | some (.plain fields) => Joi.object.setKeys fields
  | some (.joi s) => .ok s
  | none => .ok Joi.object

/-- Lines 124-131: the name of the created field. -/
def createdAtParamName (createdAt : TimestampOpt) : String :=
  match createdAt with
  | .name s => if s != "" then s else "createdAt"
  | _ => "createdAt"

/-- Lines 125-137: the name of the updated field. -/
def updatedAtParamName (updatedAt : TimestampOpt) : String :=
  match updatedAt with
  | .name s => if s != "" then s else "updatedAt"
  | _ => "updatedAt"

/-- The assignment `object[k] = v` that the source writes on the object literal
`valids`: under the name `__proto__` it sets the prototype of the object and
adds no property; under any other name it sets the property `k`. -/
def assignField {α : Type} (k : String) (v : α) (object : List (String × α)) :
    List (String × α) :=
  if k = "__proto__" then object else setProp k v object

/-- Lines 123-145: the properties of the object `valids`, the fields to
inject.  The prototype that an assignment under `__proto__` gives to `valids`
is not part of the model. -/
def timestampValids (createdAt updatedAt : TimestampOpt) : List (String × JoiSchema) :=
  let valids : List (String × JoiSchema) := []
  let valids := if createdAt.notFalse then assignField (createdAtParamName createdAt) Joi.date valids else valids
  let valids := if updatedAt.notFalse then assignField (updatedAtParamName updatedAt) Joi.date valids else valids
  valids

/-- Lines 116-150: the logical schema, with the timestamp fields when
`timestamps` is on. -/
def modelSchema (data : Config) : Except JsError JoiSchema :=
  match baseModelSchema data.schema with
  | .error e => .error e
  | .ok base =>
    if data.timestamps = some true then
      base.setKeys (timestampValids data.createdAt data.updatedAt)
    else .ok base

/-- Source `Schema`, the constructor.  The `catch` block rethrows, so an error
raised inside the `try` block leaves the constructor as an error. -/
def Schema.new (config : Config) : Except JsError Schema :=
  let data := (configSchema.validate config).value
  match modelSchema data with
  | .error e => .error e
  | .ok model =>
    match parseDynamoTypes model.describe with
    | .error e => .error e
    | .ok datatypes =>
      .ok {
        secondaryIndexes := match data.indexes with
          | some indexes => keyByName (filterType "local" indexes)
          | none => []
        globalIndexes := match data.indexes with
          | some indexes => keyByName (filterType "global" indexes)
          | none => []
        validationOptions := config.validation
        hashKey := data.hashKey
        rangeKey := data.rangeKey
        tableName := data.tableName
        timestamps := data.timestamps
        createdAt := data.createdAt
        updatedAt := data.updatedAt
        _modelSchema := model
        _modelDatatypes := datatypes }

/-! ## Validating records (`lib/schema.js`, lines 181-202) -/

/-- The object that Joi's `schema.validate(params, options)` returns for a
record. -/
structure JoiResult where
  error : JsVal
  value : JsVal
  deriving Repr

/-- The validation of Joi itself, `schema.validate(params, options)`: it is not
part of the repository and is taken as given. -/
abbrev JoiValidate : Type := JoiSchema → JsVal → List (String × JsVal) → JoiResult

/-- Lodash `_.extend(object, source)`: assigns every property of `source` to
`object`. -/
def extend (object source : List (String × JsVal)) : List (String × JsVal) :=
  source.foldl (fun result p => setProp p.1 p.2 result) object

/-- What a call of `validate` leaves behind: the schema it was called on, the
options object of the caller (`none` when the caller passed none), the options
handed to Joi, and what Joi returned. -/
structure ValidateCall where
  schema : Schema
  options : Option (List (String × JsVal))
  passed : List (String × JsVal)
  result : JoiResult
  deriving Repr

/-- Source `Schema.prototype.validate`.  The caller's options object, when
there is one, is the object that `_.extend` assigns to. -/
def Schema.validate (joi : JoiValidate) (self : Schema) (params : JsVal)
    (options : Option (List (String × JsVal))) : ValidateCall :=
  let supplied := options
  let options := options.getD []
  let options :=
    match self.validationOptions with
    | some validationOptions => extend options validationOptions
    | none => options
  { schema := self
    options := supplied.map fun _ => options
    passed := options
    result := joi self._modelSchema params options }

mutual
/-- Source `internals.invokeDefaultFunctions`: lodash `_.mapValues` over `data`
with the callback that recurses into a plain object and keeps any other
value. -/
def invokeDefaultFunctions : JsVal → JsVal
  | .obj kvs => .obj (mapValuesEntries kvs [])
  | .arr xs => .obj (mapValuesElements 0 xs [])
  | .str s => .obj (JsVal.indexed (s.toList.map fun c => JsVal.str (String.singleton c)))
  | _ => .obj []
/-- The loop of `_.mapValues` over the properties of an object: `result[key]`
becomes `invokeDefaultFunctions(val)` for a plain object `val`, and `val`
otherwise. -/
def mapValuesEntries : List (String × JsVal) → List (String × JsVal) → List (String × JsVal)
  | [], result => result
  | (key, .obj kvs) :: rest, result =>
    mapValuesEntries rest (setProp key (.obj (mapValuesEntries kvs [])) result)
  | (key, val) :: rest, result => mapValuesEntries rest (setProp key val result)
/-- The loop of `_.mapValues` over the elements of an array, from index `i`
on. -/
def mapValuesElements : Nat → List JsVal → List (String × JsVal) → List (String × JsVal)
  | _, [], result => result
  | i, .obj kvs :: rest, result =>
    mapValuesElements (i + 1) rest (setProp (toString i) (.obj (mapValuesEntries kvs [])) result)
  | i, val :: rest, result => mapValuesElements (i + 1) rest (setProp (toString i) val result)
end

/-- What a call of `applyDefaults` leaves behind: the schema it was called on
and the value it returns. -/
structure ApplyDefaultsCall where
  schema : Schema
  value : JsVal
  deriving Repr

/-- Source `Schema.prototype.applyDefaults`. -/
def Schema.applyDefaults (joi : JoiValidate) (self : Schema) (data : JsVal) : ApplyDefaultsCall :=
  let result := Schema.validate joi self data (some [("abortEarly", .bool false)])
  { schema := result.schema
    value := invokeDefaultFunctions result.result.value }

mutual
/-- Every plain object of a tree of plain objects holds each property name
once.  Arrays and other values that are no plain objects are leaves. -/
def JsVal.keysDistinct : JsVal → Bool
  | .obj kvs => decide (KeysNodup kvs) && entriesKeysDistinct kvs
  | _ => true
/-- The property values of an object satisfy `keysDistinct`. -/
def entriesKeysDistinct : List (String × JsVal) → Bool
  | [] => true
  | (_, v) :: rest => v.keysDistinct && entriesKeysDistinct rest
end

/-! ## The model registry (`lib/index.js`, lines 88-96 and 114-120) -/

/-- The properties that an object literal `{}` inherits from
`Object.prototype`: a read of one of these names on an object that has no
property of its own under the name gives the inherited value, a function (for
`__proto__` the prototype object itself, shown without its properties). -/
def objectPrototype : List (String × JsVal) :=
  [("constructor", .func 1), ("hasOwnProperty", .func 2), ("isPrototypeOf", .func 3),
    ("propertyIsEnumerable", .func 4), ("toLocaleString", .func 5), ("toString", .func 6),
    ("valueOf", .func 7), ("__defineGetter__", .func 8), ("__defineSetter__", .func 9),
    ("__lookupGetter__", .func 10), ("__lookupSetter__", .func 11), ("__proto__", .obj [])]

/-- The read `dynogels.models[name]`: the registered entry, else the property
inherited from `Object.prototype`, else `undefined`. -/
def readModel (models : List (String × JsVal)) (name : String) : JsVal :=
  match lookup name models with
  | some model => model
  | none => (lookup name objectPrototype).getD .undefined

/-- Source `dynogels.reset`: the value it gives to `dynogels.models`. -/
def dynogels.reset : List (String × JsVal) := []

/-- Source `internals.addModel`: the new `dynogels.models` and the value
returned.  An assignment under the name `__proto__`, which sets the prototype
and no property, is outside this model. -/
def internals.addModel (models : List (String × JsVal)) (name : String) (model : JsVal) :
    List (String × JsVal) × JsVal :=
  let models := setProp name model models
  (models, readModel models name)

/-- Source `dynogels.model`: the new `dynogels.models` and the value returned;
`model` is `undefined` when the argument is left out. -/
def dynogels.model (models : List (String × JsVal)) (name : String) (model : JsVal) :
    List (String × JsVal) × JsVal :=
  let models := if model.truthy then (internals.addModel models name model).1 else models
  (models, if (readModel models name).truthy then readModel models name else .null)

/-- The attributes a config declares: the fields of a plain `schema`, the keys
of a Joi object given as `schema`, none when `schema` is left out. -/
def declaredAttributes (schema : Option SchemaDecl) : List (String × JoiSchema) :=
  match schema with
  | some (.plain fields) => fields
  | some (.joi s) => s.children.getD []
  | none => []

/-! ## Sample inputs -/

/-- A key map with a string-set field next to a nested object. -/
def sampleChildren : List (String × JoiSchema) :=
  [("tags", Schema.types.stringSet), ("address", .mk "object" [] (some [("since", Joi.date)]))]

/-- A date schema carrying two attached objects, the second with a
`dynamoType`. -/
def sampleOverride : JoiSchema :=
  .mk "date" [[("unit", .str "ms")], [("dynamoType", .str "N")]] none

/-- A config with nothing set. -/
def Config.blank : Config :=
  { hashKey := none, rangeKey := none, tableName := none, indexes := none, schema := none
    timestamps := none, createdAt := .absent, updatedAt := .absent, validation := none }

/-- An index declaration with nothing set. -/
def IndexDecl.blank : IndexDecl :=
  { hashKey := none, rangeKey := none, type := none, name := none, projection := none
    readCapacity := none, writeCapacity := none }

/-- The config `{ hashKey: 'email', schema: { email: Joi.string(), age:
Joi.number() }, timestamps: true }`. -/
def sampleTimestamps : Config :=
  { Config.blank with
    hashKey := some "email"
    schema := some (.plain [("email", Joi.string), ("age", Joi.number)])
    timestamps := some true }

/-- The config `{ hashKey: 'id', schema: { createdAt: Joi.string() },
timestamps: true }`, which declares an attribute under the name of a timestamp
field. -/
def sampleTimestampClash : Config :=
  { Config.blank with
    hashKey := some "id"
    schema := some (.plain [("createdAt", Joi.string)])
    timestamps := some true }

/-- The config `{ hashKey: 'id', schema: { title: Joi.string() }, timestamps:
true, createdAt: 'created', updatedAt: false }`. -/
def sampleRenamed : Config :=
  { Config.blank with
    hashKey := some "id"
    schema := some (.plain [("title", Joi.string)])
    timestamps := some true
    createdAt := .name "created"
    updatedAt := .flag false }

/-- The declaration `{ name: 'byAge', type: 'global', hashKey: 'age' }`. -/
def sampleGlobalIndex : IndexDecl :=
  { IndexDecl.blank with name := some "byAge", type := some "global", hashKey := some "age" }

/-- The declaration `{ name: 'byDate', type: 'local', rangeKey: 'date' }`. -/
def sampleLocalIndex : IndexDecl :=
  { IndexDecl.blank with name := some "byDate", type := some "local", rangeKey := some "date" }

/-- The config `{ hashKey: 'id', indexes: [byAge, byDate] }` with one global and
one local index. -/
def sampleIndexes : Config :=
  { Config.blank with hashKey := some "id", indexes := some [sampleGlobalIndex, sampleLocalIndex] }

/-- The config `{ hashKey: 'id', indexes: [{ name: 'ix1', type: 'local' }] }`:
a local index without `rangeKey`. -/
def sampleLocalNoRangeKey : Config :=
  { Config.blank with
    hashKey := some "id"
    indexes := some [{ IndexDecl.blank with name := some "ix1", type := some "local" }] }

/-- The config `{ schema: { email: Joi.string() } }`: no `hashKey`. -/
def sampleNoHashKey : Config :=
  { Config.blank with schema := some (.plain [("email", Joi.string)]) }

/-- The config `{ hashKey: 'id', indexes: [{ name: 'gix', type: 'global' }] }`:
a global index without `hashKey`. -/
def sampleGlobalNoHashKey : Config :=
  { Config.blank with
    hashKey := some "id"
    indexes := some [{ IndexDecl.blank with name := some "gix", type := some "global" }] }

/-- The declaration `{ name: 'ix', type: 'global', hashKey: 'a' }`. -/
def sampleFirstIx : IndexDecl :=
  { IndexDecl.blank with name := some "ix", type := some "global", hashKey := some "a" }

/-- The declaration `{ name: 'ix', type: 'global', hashKey: 'b' }`. -/
def sampleSecondIx : IndexDecl :=
  { IndexDecl.blank with name := some "ix", type := some "global", hashKey := some "b" }

/-- The declaration `{ name: 'ix', type: 'local', rangeKey: 'c' }`. -/
def sampleLocalIx : IndexDecl :=
  { IndexDecl.blank with name := some "ix", type := some "local", rangeKey := some "c" }

/-- The config `{ hashKey: 'id', indexes: [...] }` with two global indexes and
one local index, all three named `ix`. -/
def sampleDuplicateNames : Config :=
  { Config.blank with
    hashKey := some "id"
    indexes := some [sampleFirstIx, sampleSecondIx, sampleLocalIx] }

/-- An underlying validation that accepts every record as it is. -/
def sampleJoi : JoiValidate := fun _ params _ => { error := .null, value := params }

/-- The config `{ hashKey: 'id', schema: { age: Joi.number() }, validation:
{ convert: false } }`. -/
def sampleConvert : Config :=
  { Config.blank with
    hashKey := some "id"
    schema := some (.plain [("age", Joi.number)])
    validation := some [("convert", .bool false)] }

/-- The config `{ hashKey: 'id', schema: { age: Joi.number() }, validation:
{ abortEarly: true } }`. -/
def sampleAbortEarly : Config :=
  { Config.blank with
    hashKey := some "id"
    schema := some (.plain [("age", Joi.number)])
    validation := some [("abortEarly", .bool true)] }

/-- The config `{ hashKey: 'id' }`: no `schema`, timestamps left out. -/
def sampleBare : Config :=
  { Config.blank with hashKey := some "id" }

/-- The config `{ hashKey: 'id', schema: { title: Joi.string() }, timestamps:
true, createdAt: false, updatedAt: false }`. -/
def sampleSuppressed : Config :=
  { Config.blank with
    hashKey := some "id"
    schema := some (.plain [("title", Joi.string)])
    timestamps := some true
    createdAt := .flag false
    updatedAt := .flag false }

/-- The config `{ hashKey: 'id', schema: { title: Joi.string() }, timestamps:
false, createdAt: 'created', updatedAt: true }`. -/
def sampleDisabled : Config :=
  { Config.blank with
    hashKey := some "id"
    schema := some (.plain [("title", Joi.string)])
    timestamps := some false
    createdAt := .name "created"
    updatedAt := .flag true }

/-- The record `{ id: 'a', profile: { tags: ['x'], make: f } }`, with a
function `f` inside a nested object. -/
def sampleRecord : JsVal :=
  .obj [("id", .str "a"), ("profile", .obj [("tags", .arr [.str "x"]), ("make", .func 100)])]

/-- The config `{ hashKey: 'id', timestamps: true, createdAt: '', updatedAt:
false }`: the empty string as the name of the created field. -/
def sampleEmptyName : Config :=
  { Config.blank with
    hashKey := some "id"
    timestamps := some true
    createdAt := .name ""
    updatedAt := .flag false }

/-- The config `{ hashKey: 'id', schema: { title: Joi.string() }, timestamps:
true, createdAt: '__proto__' }`. -/
def sampleProtoName : Config :=
  { Config.blank with
    hashKey := some "id"
    schema := some (.plain [("title", Joi.string)])
    timestamps := some true
    createdAt := .name "__proto__" }

/-- The config `{ hashKey: 'id', indexes: [{ name: 'x', type: 'other' },
{ name: 'y' }] }`: two declarations with distinct names, neither of type
`local` or `global`. -/
def sampleOtherTypes : Config :=
  { Config.blank with
    hashKey := some "id"
    indexes := some [{ IndexDecl.blank with name := some "x", type := some "other" },
      { IndexDecl.blank with name := some "y" }] }

/-! ## Association lists -/

theorem lookup_setProp_self {α : Type} (k : String) (v : α) (l : List (String × α)) :
    lookup k (setProp k v l) = some v := by
  induction l with
  | nil => simp [setProp, lookup]
  | cons p rest ih =>
    obtain ⟨k', v'⟩ := p
    by_cases h : k' = k
    · simp [setProp, lookup, h]
    · simp [setProp, lookup, h, ih]

theorem lookup_setProp_of_ne {α : Type} (k k' : String) (v : α) (l : List (String × α))
    (h : k ≠ k') : lookup k' (setProp k v l) = lookup k' l := by
  induction l with
  | nil => simp [setProp, lookup, h]
  | cons p rest ih =>
    obtain ⟨k'', v'⟩ := p
    by_cases h1 : k'' = k
    · subst h1; simp [setProp, lookup, h]
    · by_cases h2 : k'' = k'
      · subst h2; simp [setProp, lookup, h1]
      · simp [setProp, lookup, h1, h2, ih]

theorem setProp_of_not_mem {α : Type} (k : String) (v : α) (l : List (String × α))
    (h : k ∉ keysOf l) : setProp k v l = l ++ [(k, v)] := by
  induction l with
  | nil => rfl
  | cons p rest ih =>
    obtain ⟨k', v'⟩ := p
    simp only [keysOf, List.map_cons, List.mem_cons, not_or] at h
    have hne : ¬ k' = k := fun e => h.1 e.symm
    simp only [setProp, hne, if_false, List.cons_append]
    rw [ih h.2]

theorem keysOf_setProp_of_mem {α : Type} (k : String) (v : α) (l : List (String × α))
    (h : k ∈ keysOf l) : keysOf (setProp k v l) = keysOf l := by
  induction l with
  | nil => simp [keysOf] at h
  | cons p rest ih =>
    obtain ⟨k', v'⟩ := p
    by_cases h1 : k' = k
    · simp [setProp, h1, keysOf]
    · have : k ∈ keysOf rest := by
        simp only [keysOf, List.map_cons, List.mem_cons] at h
        rcases h with h | h
        · exact absurd h.symm h1
        · exact h
      have ih' := ih this
      simp only [keysOf] at ih'
      simp [setProp, h1, keysOf, ih']

theorem lookup_eq_some_of_mem {α : Type} (l : List (String × α)) (hn : KeysNodup l)
    (k : String) (v : α) (h : (k, v) ∈ l) : lookup k l = some v := by
  induction l with
  | nil => simp at h
  | cons p rest ih =>
    obtain ⟨k', v'⟩ := p
    simp only [KeysNodup, keysOf, List.map_cons, List.nodup_cons] at hn
    rcases List.mem_cons.mp h with h | h
    · cases h; simp [lookup]
    · have hne : ¬ k' = k := by
        intro e
        subst e
        exact hn.1 (List.mem_map.mpr ⟨(k', v), h, rfl⟩)
      simp only [lookup, hne, if_false]
      exact ih hn.2 h

theorem mem_of_lookup_eq_some {α : Type} (l : List (String × α))
    (k : String) (v : α) (h : lookup k l = some v) : (k, v) ∈ l := by
  induction l with
  | nil => simp [lookup] at h
  | cons p rest ih =>
    obtain ⟨k', v'⟩ := p
    by_cases h1 : k' = k
    · simp only [lookup, h1, if_true, Option.some.injEq] at h
      subst h1; subst h
      exact List.mem_cons_self _ _
    · simp only [lookup, h1, if_false] at h
      exact List.mem_cons_of_mem _ (ih h)

theorem lookup_eq_none_iff {α : Type} (l : List (String × α)) (k : String) :
    lookup k l = none ↔ k ∉ keysOf l := by
  induction l with
  | nil => simp [lookup, keysOf]
  | cons p rest ih =>
    obtain ⟨k', v'⟩ := p
    by_cases h1 : k' = k
    · simp [lookup, h1, keysOf]
    · have hne : ¬ k = k' := fun e => h1 e.symm
      simp only [lookup, h1, if_false, ih, keysOf, List.map_cons, List.mem_cons, hne, false_or]

/-! ## Depth and fuel -/

theorem depth_le_depthEntries_of_mem (kvs : List (String × JsVal)) (k : String) (v : JsVal)
    (h : (k, v) ∈ kvs) : v.depth ≤ depthEntries kvs := by
  induction kvs with
  | nil => simp at h
  | cons p rest ih =>
    obtain ⟨k', v'⟩ := p
    simp only [depthEntries]
    rcases List.mem_cons.mp h with h | h
    · cases h; exact le_max_left _ _
    · exact le_trans (ih h) (le_max_right _ _)

theorem depth_le_depthList_of_mem (xs : List JsVal) (v : JsVal)
    (h : v ∈ xs) : v.depth ≤ depthList xs := by
  induction xs with
  | nil => simp at h
  | cons x rest ih =>
    simp only [depthList]
    rcases List.mem_cons.mp h with h | h
    · subst h; exact le_max_left _ _
    · exact le_trans (ih h) (le_max_right _ _)

theorem mem_of_mem_indexed (xs : List JsVal) (k : String) (v : JsVal)
    (h : (k, v) ∈ JsVal.indexed xs) : v ∈ xs := by
  simp only [JsVal.indexed, List.mem_map, Prod.mk.injEq] at h
  obtain ⟨p, hp, -, rfl⟩ := h
  exact (List.of_mem_zip hp).2

/-- The value of `val.children`, when it is a plain object, lies strictly
inside `val`. -/
theorem depth_children_lt (val c : JsVal) (h : val.prop "children" = .ok c)
    (hc : c.isPlainObject = true) : c.depth < val.depth := by
  cases val with
  | obj kvs =>
    simp only [JsVal.prop, Except.ok.injEq] at h
    cases hl : lookup "children" kvs with
    | none => rw [hl] at h; subst h; simp [JsVal.isPlainObject] at hc
    | some w =>
      rw [hl] at h
      simp only [Option.getD_some] at h
      subst h
      have := depth_le_depthEntries_of_mem kvs _ _ (mem_of_lookup_eq_some kvs _ _ hl)
      simp only [JsVal.depth]
      omega
  | undefined => simp [JsVal.prop] at h
  | null => simp [JsVal.prop] at h
  | bool b => simp only [JsVal.prop, Except.ok.injEq] at h; subst h; simp [JsVal.isPlainObject] at hc
  | num b => simp only [JsVal.prop, Except.ok.injEq] at h; subst h; simp [JsVal.isPlainObject] at hc
  | str b => simp only [JsVal.prop, Except.ok.injEq] at h; subst h; simp [JsVal.isPlainObject] at hc
  | func b => simp only [JsVal.prop, Except.ok.injEq] at h; subst h; simp [JsVal.isPlainObject] at hc
  | arr b => simp only [JsVal.prop, Except.ok.injEq] at h; subst h; simp [JsVal.isPlainObject] at hc

/-- An entry of `data` is no deeper than `data`, and strictly less deep when it
is an object. -/
theorem depth_entry_lt (data : JsVal) (k : String) (v : JsVal) (h : (k, v) ∈ data.entries)
    (hv : 0 < v.depth) : v.depth < data.depth := by
  cases data with
  | obj kvs =>
    have := depth_le_depthEntries_of_mem kvs k v h
    simp only [JsVal.depth]; omega
  | arr xs =>
    have := depth_le_depthList_of_mem xs v (mem_of_mem_indexed xs k v h)
    simp only [JsVal.depth]; omega
  | str s =>
    have hm := mem_of_mem_indexed _ k v h
    simp only [List.mem_map] at hm
    obtain ⟨c, -, rfl⟩ := hm
    simp [JsVal.depth] at hv
  | undefined => simp [JsVal.entries] at h
  | null => simp [JsVal.entries] at h
  | bool b => simp [JsVal.entries] at h
  | num b => simp [JsVal.entries] at h
  | func b => simp [JsVal.entries] at h

theorem entryType_congr (f g : JsVal → Except JsError JsVal) (val : JsVal)
    (h : ∀ c, val.prop "children" = .ok c → c.isPlainObject = true → f c = g c) :
    entryType f val = entryType g val := by
  unfold entryType
  cases ht : val.prop "type" with
  | error e => rfl
  | ok t =>
    simp only
    by_cases hs : t.isStr "object" = true
    · simp only [hs, if_true]
      cases hc : val.prop "children" with
      | error e => rfl
      | ok c =>
        simp only
        by_cases hp : c.isPlainObject = true
        · simp only [hp, if_true]; exact h c hc hp
        · simp only [Bool.not_eq_true] at hp
          simp only [hp, Bool.false_eq_true, if_false]
    · simp only [Bool.not_eq_true] at hs
      simp only [hs, Bool.false_eq_true, if_false]

theorem reduceTypes_congr (f g : JsVal → Except JsError JsVal) (es : List (String × JsVal))
    (h : ∀ k v, (k, v) ∈ es → ∀ c, v.prop "children" = .ok c → c.isPlainObject = true → f c = g c) :
    ∀ acc, reduceTypes f es acc = reduceTypes g es acc := by
  induction es with
  | nil => intro acc; rfl
  | cons p rest ih =>
    obtain ⟨k, v⟩ := p
    intro acc
    have hv := entryType_congr f g v (h k v (List.mem_cons_self _ _))
    have hrest := ih (fun k' v' hm => h k' v' (List.mem_cons_of_mem _ hm))
    simp only [reduceTypes, hv]
    cases entryType g v with
    | error e => rfl
    | ok r => exact hrest _

theorem prop_children_of_isObjectWithChildren (data : JsVal) (h : isObjectWithChildren data = true) :
    data.prop "children" = .ok (childrenOf data) ∧ (childrenOf data).isPlainObject = true := by
  cases data with
  | obj kvs =>
    simp only [isObjectWithChildren, Bool.and_eq_true] at h
    exact ⟨rfl, h.2⟩
  | undefined => simp [isObjectWithChildren] at h
  | null => simp [isObjectWithChildren] at h
  | bool b => simp [isObjectWithChildren] at h
  | num b => simp [isObjectWithChildren] at h
  | str b => simp [isObjectWithChildren] at h
  | func b => simp [isObjectWithChildren] at h
  | arr b => simp [isObjectWithChildren] at h

/-- Any two amounts of fuel above the depth of the value give the same
result. -/
theorem parseDynamoTypesFuel_eq_of_depth_lt :
    ∀ (n m : Nat) (data : JsVal), data.depth < n → data.depth < m →
      parseDynamoTypesFuel n data = parseDynamoTypesFuel m data := by
  intro n
  induction n with
  | zero => intro m data h; omega
  | succ n ih =>
    intro m data hn hm
    cases m with
    | zero => omega
    | succ m =>
      simp only [parseDynamoTypesFuel]
      by_cases hb : isObjectWithChildren data = true
      · simp only [hb, if_true]
        obtain ⟨hc, hp⟩ := prop_children_of_isObjectWithChildren data hb
        have := depth_children_lt data _ hc hp
        exact ih m _ (by omega) (by omega)
      · simp only [Bool.not_eq_true] at hb
        simp only [hb, Bool.false_eq_true, if_false]
        have hcongr := reduceTypes_congr (parseDynamoTypesFuel n) (parseDynamoTypesFuel m)
          data.entries (by
            intro k v hmem c hc hp
            have h1 := depth_children_lt v c hc hp
            have h2 := depth_entry_lt data k v hmem (by omega)
            exact ih m c (by omega) (by omega)) []
        rw [hcongr]

/-- The recursion of the source, read off the total function: the equation
that `internals.parseDynamoTypes` satisfies. -/
theorem parseDynamoTypes_eq (data : JsVal) :
    parseDynamoTypes data =
      if isObjectWithChildren data then parseDynamoTypes (childrenOf data)
      else
        match reduceTypes parseDynamoTypes data.entries [] with
        | .error e => .error e
        | .ok mapped => .ok (.obj mapped) := by
  unfold parseDynamoTypes
  simp only [parseDynamoTypesFuel]
  by_cases hb : isObjectWithChildren data = true
  · simp only [hb, if_true]
    obtain ⟨hc, hp⟩ := prop_children_of_isObjectWithChildren data hb
    have := depth_children_lt data _ hc hp
    exact parseDynamoTypesFuel_eq_of_depth_lt data.depth ((childrenOf data).depth + 1)
      (childrenOf data) (by omega) (by omega)
  · simp only [Bool.not_eq_true] at hb
    simp only [hb, Bool.false_eq_true, if_false]
    have hcongr := reduceTypes_congr (parseDynamoTypesFuel data.depth)
      (fun d => parseDynamoTypesFuel (d.depth + 1) d) data.entries (by
        intro k v hmem c hc hp
        have h1 := depth_children_lt v c hc hp
        have h2 := depth_entry_lt data k v hmem (by omega)
        exact parseDynamoTypesFuel_eq_of_depth_lt data.depth (c.depth + 1) c
          (by omega) (by omega)) []
    rw [hcongr]
    rfl

theorem prop_ne_outOfFuel (v : JsVal) (k : String) : v.prop k ≠ .error .outOfFuel := by
  cases v <;> simp [JsVal.prop]

theorem findDynamoMeta_ne_outOfFuel (es : List (String × JsVal)) :
    findDynamoMeta es ≠ .error .outOfFuel := by
  induction es with
  | nil => simp [findDynamoMeta]
  | cons p rest ih =>
    obtain ⟨k, m⟩ := p
    simp only [findDynamoMeta]
    cases hp : m.prop "dynamoType" with
    | error e =>
      intro h
      simp only [Except.error.injEq] at h
      exact prop_ne_outOfFuel m "dynamoType" (by rw [hp, h])
    | ok t =>
      simp only
      split_ifs
      · simp
      · exact ih

theorem findDynamoTypeMetadata_ne_outOfFuel (data : JsVal) :
    findDynamoTypeMetadata data ≠ .error .outOfFuel := by
  unfold findDynamoTypeMetadata
  cases hm : data.prop "meta" with
  | error e =>
    intro h
    simp only [Except.error.injEq] at h
    exact prop_ne_outOfFuel data "meta" (by rw [hm, h])
  | ok metas =>
    simp only
    cases hf : findDynamoMeta metas.entries with
    | error e =>
      intro h
      simp only [Except.error.injEq] at h
      exact findDynamoMeta_ne_outOfFuel _ (by rw [hf, h])
    | ok found =>
      simp only
      split_ifs
      · exact prop_ne_outOfFuel _ _
      · cases ht : data.prop "type" with
        | error e =>
          intro h
          simp only [Except.error.injEq] at h
          exact prop_ne_outOfFuel data "type" (by rw [ht, h])
        | ok t => simp

theorem entryType_ne_outOfFuel (recur : JsVal → Except JsError JsVal) (val : JsVal)
    (h : ∀ c, val.prop "children" = .ok c → c.isPlainObject = true → recur c ≠ .error .outOfFuel) :
    entryType recur val ≠ .error .outOfFuel := by
  unfold entryType
  cases ht : val.prop "type" with
  | error e =>
    intro he
    simp only [Except.error.injEq] at he
    exact prop_ne_outOfFuel val "type" (by rw [ht, he])
  | ok t =>
    simp only
    split_ifs
    · cases hc : val.prop "children" with
      | error e =>
        intro he
        simp only [Except.error.injEq] at he
        exact prop_ne_outOfFuel val "children" (by rw [hc, he])
      | ok c =>
        simp only
        split_ifs with hp
        · exact h c hc hp
        · exact findDynamoTypeMetadata_ne_outOfFuel val
    · exact findDynamoTypeMetadata_ne_outOfFuel val

theorem reduceTypes_ne_outOfFuel (recur : JsVal → Except JsError JsVal)
    (es : List (String × JsVal))
    (h : ∀ k v, (k, v) ∈ es → ∀ c, v.prop "children" = .ok c → c.isPlainObject = true →
      recur c ≠ .error .outOfFuel) :
    ∀ acc, reduceTypes recur es acc ≠ .error .outOfFuel := by
  induction es with
  | nil => intro acc; simp [reduceTypes]
  | cons p rest ih =>
    obtain ⟨k, v⟩ := p
    intro acc
    simp only [reduceTypes]
    cases he : entryType recur v with
    | error e =>
      intro hh
      simp only [Except.error.injEq] at hh
      exact entryType_ne_outOfFuel recur v (h k v (List.mem_cons_self _ _)) (by rw [he, hh])
    | ok r =>
      exact ih (fun k' v' hm => h k' v' (List.mem_cons_of_mem _ hm)) _

/-- The bound on the depth of the recursion is never reached: on every value
`parseDynamoTypes` returns a mapping or throws a `TypeError`. -/
theorem parseDynamoTypes_ne_outOfFuel :
    ∀ (n : Nat) (data : JsVal), data.depth < n → parseDynamoTypes data ≠ .error .outOfFuel := by
  intro n
  induction n with
  | zero => intro data h; omega
  | succ n ih =>
    intro data hn
    rw [parseDynamoTypes_eq]
    by_cases hb : isObjectWithChildren data = true
    · simp only [hb, if_true]
      obtain ⟨hc, hp⟩ := prop_children_of_isObjectWithChildren data hb
      have := depth_children_lt data _ hc hp
      exact ih _ (by omega)
    · simp only [Bool.not_eq_true] at hb
      simp only [hb, Bool.false_eq_true, if_false]
      have hred := reduceTypes_ne_outOfFuel parseDynamoTypes data.entries (by
        intro k v hmem c hc hp
        have h1 := depth_children_lt v c hc hp
        have h2 := depth_entry_lt data k v hmem (by omega)
        exact ih c (by omega)) []
      cases hr : reduceTypes parseDynamoTypes data.entries [] with
      | error e =>
        intro hh
        simp only [Except.error.injEq] at hh
        exact hred (by rw [hr, hh])
      | ok mapped => simp

/-! ## Descriptions of Joi schemas -/

theorem describeChildren_eq_map (cs : List (String × JoiSchema)) :
    describeChildren cs = cs.map fun p => (p.1, p.2.describe) := by
  induction cs with
  | nil => rfl
  | cons p rest ih => obtain ⟨k, c⟩ := p; simp [describeChildren, ih]

theorem keysOf_describeChildren (cs : List (String × JoiSchema)) :
    keysOf (describeChildren cs) = keysOf cs := by
  simp [describeChildren_eq_map, keysOf]

theorem mem_describeChildren (cs : List (String × JoiSchema)) (k : String) (v : JsVal) :
    (k, v) ∈ describeChildren cs ↔ ∃ c, (k, c) ∈ cs ∧ v = c.describe := by
  rw [describeChildren_eq_map]
  simp only [List.mem_map, Prod.mk.injEq]
  constructor
  · rintro ⟨⟨k', c⟩, hm, rfl, rfl⟩; exact ⟨c, hm, rfl⟩
  · rintro ⟨c, hm, rfl⟩; exact ⟨(k, c), hm, rfl, rfl⟩

theorem describe_prop_type (c : JoiSchema) : c.describe.prop "type" = .ok (.str c.type) := by
  obtain ⟨t, m, ch⟩ := c
  cases ch <;> simp [JoiSchema.describe, JsVal.prop, lookup, JoiSchema.type]

theorem describe_prop_children (c : JoiSchema) :
    c.describe.prop "children" =
      .ok (match c.children with
        | some cs => .obj (describeChildren cs)
        | none => .undefined) := by
  obtain ⟨t, m, ch⟩ := c
  cases ch <;> cases hm : m.isEmpty <;>
    simp [JoiSchema.describe, JsVal.prop, lookup, JoiSchema.children, hm]

theorem describe_prop_meta (c : JoiSchema) :
    c.describe.prop "meta" =
      .ok (if c.metas.isEmpty then .undefined else .arr (c.metas.map .obj)) := by
  obtain ⟨t, m, ch⟩ := c
  cases ch <;> cases hm : m.isEmpty <;>
    simp [JoiSchema.describe, JsVal.prop, lookup, JoiSchema.metas, hm]

theorem isObjectWithChildren_describe (c : JoiSchema) :
    isObjectWithChildren c.describe = (c.type == "object" && c.children.isSome) := by
  obtain ⟨t, m, ch⟩ := c
  cases ch <;> cases hm : m.isEmpty <;>
    simp [JoiSchema.describe, isObjectWithChildren, lookup, JoiSchema.children, JoiSchema.type, hm,
      JsVal.isStr, JsVal.isPlainObject]

theorem childrenOf_describe (c : JoiSchema) (cs : List (String × JoiSchema))
    (h : c.children = some cs) : childrenOf c.describe = .obj (describeChildren cs) := by
  obtain ⟨t, m, ch⟩ := c
  simp only [JoiSchema.children] at h
  subst h
  cases hm : m.isEmpty <;> simp [JoiSchema.describe, childrenOf, lookup, hm]

theorem isObjectWithChildren_describeChildren (cs : List (String × JoiSchema)) :
    isObjectWithChildren (.obj (describeChildren cs)) = false := by
  have key : ∀ k s, ((lookup k (describeChildren cs)).getD .undefined).isStr s = false := by
    intro k s
    cases hl : lookup k (describeChildren cs) with
    | none => rfl
    | some v =>
      obtain ⟨c, -, rfl⟩ := (mem_describeChildren cs k v).mp (mem_of_lookup_eq_some _ _ _ hl)
      obtain ⟨t, m, ch⟩ := c
      cases ch <;> rfl
  simp [isObjectWithChildren, key]

/-! ## The tag of a described schema -/

theorem map_snd_indexed (xs : List JsVal) : (JsVal.indexed xs).map Prod.snd = xs := by
  simp only [JsVal.indexed, List.map_map]
  have : (Prod.snd ∘ fun p : Nat × JsVal => (toString p.1, p.2)) = Prod.snd := by
    funext p; rfl
  rw [this]
  exact List.map_snd_zip _ _ (by simp)

theorem findDynamoMeta_of_objects (es : List (String × JsVal)) :
    ∀ ms : List (List (String × JsVal)), es.map Prod.snd = ms.map JsVal.obj →
      findDynamoMeta es =
        .ok (match ms.find? (fun m => ((lookup "dynamoType" m).getD .undefined).isString) with
          | some m => .obj m
          | none => .undefined) := by
  induction es with
  | nil =>
    intro ms h
    cases ms with
    | nil => rfl
    | cons m rest => simp at h
  | cons p rest ih =>
    obtain ⟨k, v⟩ := p
    intro ms h
    cases ms with
    | nil => simp at h
    | cons m ms' =>
      simp only [List.map_cons, List.cons.injEq] at h
      obtain ⟨hv, hrest⟩ := h
      subst hv
      simp only [findDynamoMeta, JsVal.prop, List.find?_cons]
      cases hp : ((lookup "dynamoType" m).getD JsVal.undefined).isString with
      | true => simp
      | false => simpa using ih ms' hrest

/-- What `findDynamoTypeMetadata` returns on the description of a schema: the
`dynamoType` of the first attached object that has a string one, the tag of
`wireType` for the structural kind when there is none. -/
theorem findDynamoTypeMetadata_describe (c : JoiSchema) :
    findDynamoTypeMetadata c.describe =
      .ok (match c.metas.find? (fun m => ((lookup "dynamoType" m).getD .undefined).isString) with
        | some m => (lookup "dynamoType" m).getD .undefined
        | none => wireType (.str c.type)) := by
  unfold findDynamoTypeMetadata
  rw [describe_prop_meta, describe_prop_type]
  simp only
  cases hm : c.metas.isEmpty with
  | true =>
    have : c.metas = [] := List.isEmpty_iff.mp hm
    simp [this, JsVal.entries, findDynamoMeta, JsVal.truthy]
  | false =>
    simp only [Bool.false_eq_true, if_false, JsVal.entries]
    rw [findDynamoMeta_of_objects _ c.metas (map_snd_indexed _)]
    cases hf : c.metas.find? (fun m => ((lookup "dynamoType" m).getD .undefined).isString) with
    | none => simp [JsVal.truthy]
    | some m => simp [JsVal.truthy, JsVal.prop]

theorem wireType_str_shape (t : String) :
    wireType (.str t) = .null ∨ ∃ s, wireType (.str t) = .str s := by
  unfold wireType
  split_ifs <;> simp

/-- The tag of a described schema is a single tag: a string or `null`. -/
theorem findDynamoTypeMetadata_describe_shape (c : JoiSchema) :
    ∃ tag, findDynamoTypeMetadata c.describe = .ok tag ∧ (tag = .null ∨ ∃ s, tag = .str s) := by
  rw [findDynamoTypeMetadata_describe]
  refine ⟨_, rfl, ?_⟩
  cases hf : c.metas.find? (fun m => ((lookup "dynamoType" m).getD .undefined).isString) with
  | none => exact wireType_str_shape _
  | some m =>
    have hp := List.find?_some hf
    simp only at hp ⊢
    cases hv : (lookup "dynamoType" m).getD JsVal.undefined with
    | str s => exact Or.inr ⟨s, rfl⟩
    | undefined => rw [hv] at hp; simp [JsVal.isString] at hp
    | null => rw [hv] at hp; simp [JsVal.isString] at hp
    | bool b => rw [hv] at hp; simp [JsVal.isString] at hp
    | num b => rw [hv] at hp; simp [JsVal.isString] at hp
    | func b => rw [hv] at hp; simp [JsVal.isString] at hp
    | arr b => rw [hv] at hp; simp [JsVal.isString] at hp
    | obj b => rw [hv] at hp; simp [JsVal.isString] at hp

/-- The entry filed for a described schema: the type map of its keys when it is
an object schema with keys, its tag otherwise. -/
theorem entryType_describe (recur : JsVal → Except JsError JsVal) (c : JoiSchema) :
    entryType recur c.describe =
      match c.children with
      | some cs =>
        if c.type = "object" then recur (.obj (describeChildren cs))
        else findDynamoTypeMetadata c.describe
      | none => findDynamoTypeMetadata c.describe := by
  unfold entryType
  rw [describe_prop_type, describe_prop_children]
  cases hc : c.children with
  | none =>
    by_cases ht : c.type = "object" <;> simp [JsVal.isStr, ht, JsVal.isPlainObject]
  | some cs =>
    by_cases ht : c.type = "object" <;> simp [JsVal.isStr, ht, JsVal.isPlainObject]

/-! ## The reduce loop -/

theorem reduceTypes_isOk (recur : JsVal → Except JsError JsVal) (es : List (String × JsVal))
    (h : ∀ k v, (k, v) ∈ es → ∃ r, entryType recur v = .ok r) :
    ∀ acc, ∃ m, reduceTypes recur es acc = .ok m := by
  induction es with
  | nil => intro acc; exact ⟨acc, rfl⟩
  | cons p rest ih =>
    obtain ⟨k, v⟩ := p
    intro acc
    obtain ⟨r, hr⟩ := h k v (List.mem_cons_self _ _)
    simp only [reduceTypes, hr]
    exact ih (fun k' v' hm => h k' v' (List.mem_cons_of_mem _ hm)) _

/-- On an object whose property names are distinct the loop files, in order,
one entry per property under the property's own name. -/
theorem reduceTypes_of_nodup (recur : JsVal → Except JsError JsVal) (es : List (String × JsVal))
    (h : ∀ k v, (k, v) ∈ es → ∃ r, entryType recur v = .ok r) :
    ∀ acc, (keysOf acc ++ keysOf es).Nodup →
      ∃ rs, reduceTypes recur es acc = .ok (acc ++ rs) ∧ keysOf rs = keysOf es ∧
        ∀ k v, (k, v) ∈ es → ∃ r, entryType recur v = .ok r ∧ (k, r) ∈ rs := by
  induction es with
  | nil => intro acc _; exact ⟨[], by simp [reduceTypes], rfl, by simp⟩
  | cons p rest ih =>
    obtain ⟨k, v⟩ := p
    intro acc hn
    obtain ⟨r, hr⟩ := h k v (List.mem_cons_self _ _)
    have hk : k ∉ keysOf acc := by
      intro hmem
      have := (List.nodup_append.mp hn).2.2
      exact this hmem (by simp [keysOf]) 
    have hn' : (keysOf (acc ++ [(k, r)]) ++ keysOf rest).Nodup := by
      simpa [keysOf] using hn
    obtain ⟨rs, hrs, hkeys, hmem⟩ :=
      ih (fun k' v' hm => h k' v' (List.mem_cons_of_mem _ hm)) (acc ++ [(k, r)]) hn'
    refine ⟨(k, r) :: rs, ?_, ?_, ?_⟩
    · simp only [reduceTypes, hr, setProp_of_not_mem k r acc hk, hrs, List.append_assoc,
        List.singleton_append]
    · simp only [keysOf, List.map_cons] at hkeys ⊢
      rw [hkeys]
    · intro k' v' hm
      rcases List.mem_cons.mp hm with hm | hm
      · cases hm; exact ⟨r, hr, List.mem_cons_self _ _⟩
      · obtain ⟨r', hr', hmem'⟩ := hmem k' v' hm
        exact ⟨r', hr', List.mem_cons_of_mem _ hmem'⟩

/-! ## The type mapper on descriptions -/

/-- The type mapper on a map of described children: it succeeds when every
child gets an entry. -/
theorem parseDynamoTypes_describeChildren_isOk (cs : List (String × JoiSchema))
    (h : ∀ k c, (k, c) ∈ cs → ∃ r, attributeType c.describe = .ok r) :
    ∃ m, parseDynamoTypes (.obj (describeChildren cs)) = .ok (.obj m) := by
  rw [parseDynamoTypes_eq, isObjectWithChildren_describeChildren]
  simp only [Bool.false_eq_true, if_false, JsVal.entries]
  obtain ⟨m, hm⟩ := reduceTypes_isOk parseDynamoTypes (describeChildren cs) (by
    intro k v hmem
    obtain ⟨c, hc, rfl⟩ := (mem_describeChildren cs k v).mp hmem
    exact h k c hc) []
  exact ⟨m, by rw [hm]⟩

mutual
/-- Every described schema gets an entry: the recursion returns on every
finite tree. -/
theorem attributeType_describe_isOk : ∀ c : JoiSchema, ∃ r, attributeType c.describe = .ok r
  | .mk t m none => by
    obtain ⟨tag, htag, -⟩ := findDynamoTypeMetadata_describe_shape (.mk t m none)
    exact ⟨tag, by rw [attributeType, entryType_describe]; exact htag⟩
  | .mk t m (some cs) => by
    by_cases ht : t = "object"
    · obtain ⟨r, hr⟩ := parseDynamoTypes_describeChildren_isOk cs (attributeType_children_isOk cs)
      exact ⟨.obj r, by rw [attributeType, entryType_describe]; simp [JoiSchema.children, JoiSchema.type, ht, hr]⟩
    · obtain ⟨tag, htag, -⟩ := findDynamoTypeMetadata_describe_shape (.mk t m (some cs))
      exact ⟨tag, by rw [attributeType, entryType_describe]; simp [JoiSchema.children, JoiSchema.type, ht, htag]⟩
/-- Every child of a described key map gets an entry. -/
theorem attributeType_children_isOk : ∀ (cs : List (String × JoiSchema)) (k : String) (c : JoiSchema),
    (k, c) ∈ cs → ∃ r, attributeType c.describe = .ok r
  | [], _, _, h => by simp at h
  | (k', c') :: rest, k, c, h => by
    rcases List.mem_cons.mp h with h | h
    · cases h; exact attributeType_describe_isOk c'
    · exact attributeType_children_isOk rest k c h
end

/-- The type map of an object schema with keys of distinct names: one entry per
key, under the key's name, holding what the type mapper files for that key. -/
theorem parseDynamoTypes_describe_object (metas : List (List (String × JsVal)))
    (cs : List (String × JoiSchema)) (hn : KeysNodup cs) :
    ∃ mapped, parseDynamoTypes (JoiSchema.describe (.mk "object" metas (some cs))) = .ok (.obj mapped) ∧
      keysOf mapped = keysOf cs ∧ KeysNodup mapped ∧
      ∀ k c, (k, c) ∈ cs → ∃ r, attributeType c.describe = .ok r ∧ lookup k mapped = some r := by
  rw [parseDynamoTypes_eq, isObjectWithChildren_describe]
  simp only [JoiSchema.type, JoiSchema.children, beq_self_eq_true, Option.isSome_some,
    Bool.and_self, if_true]
  rw [childrenOf_describe (.mk "object" metas (some cs)) cs rfl, parseDynamoTypes_eq,
    isObjectWithChildren_describeChildren]
  simp only [Bool.false_eq_true, if_false, JsVal.entries]
  obtain ⟨rs, hrs, hkeys, hmem⟩ := reduceTypes_of_nodup parseDynamoTypes (describeChildren cs) (by
    intro k v hm
    obtain ⟨c, hc, rfl⟩ := (mem_describeChildren cs k v).mp hm
    exact attributeType_children_isOk cs k c hc) [] (by
      have : keysOf (describeChildren cs) = keysOf cs := keysOf_describeChildren cs
      simp only [keysOf, List.map_nil, List.nil_append] at this ⊢
      rw [this]; exact hn)
  rw [keysOf_describeChildren] at hkeys
  have hnr : KeysNodup rs := by unfold KeysNodup; rw [hkeys]; exact hn
  refine ⟨rs, by rw [hrs]; rfl, hkeys, hnr, ?_⟩
  intro k c hc
  obtain ⟨r, hr, hin⟩ := hmem k c.describe ((mem_describeChildren cs k _).mpr ⟨c, hc, rfl⟩)
  exact ⟨r, hr, lookup_eq_some_of_mem rs hnr k r hin⟩

/-! ## Keying the index declarations by name -/

/-- In the loop of `_.keyBy` the entry under a name is the last declaration
with that name, or what was there before when there is none. -/
theorem lookup_foldl_setProp (n : String) (ds : List IndexDecl) :
    ∀ acc : List (String × IndexDecl),
      lookup n (ds.foldl (fun result d => setProp (nameKey d) d result) acc) =
        ((ds.filter fun d => nameKey d == n).getLast?).or (lookup n acc) := by
  induction ds with
  | nil => intro acc; simp
  | cons d rest ih =>
    intro acc
    simp only [List.foldl_cons]
    rw [ih]
    by_cases hd : nameKey d = n
    · have hf : (List.filter (fun d => nameKey d == n) (d :: rest)) =
          d :: List.filter (fun d => nameKey d == n) rest := by
        simp [List.filter_cons, hd]
      rw [hf, List.getLast?_cons, ← hd, lookup_setProp_self]
      cases List.getLast? (List.filter (fun d' => nameKey d' == nameKey d) rest) <;> simp
    · have hf : (List.filter (fun d => nameKey d == n) (d :: rest)) =
          List.filter (fun d => nameKey d == n) rest := by
        simp [List.filter_cons, hd]
      rw [hf, lookup_setProp_of_ne _ _ _ _ hd]

/-- Lodash `_.keyBy(indexes, 'name')` files under each name the last
declaration with that name. -/
theorem lookup_keyByName (n : String) (ds : List IndexDecl) :
    lookup n (keyByName ds) = (ds.filter fun d => nameKey d == n).getLast? := by
  unfold keyByName
  rw [lookup_foldl_setProp]
  simp [lookup]

theorem mem_keysOf_keyByName (n : String) (ds : List IndexDecl) :
    n ∈ keysOf (keyByName ds) ↔ ∃ d ∈ ds, nameKey d = n := by
  have h := lookup_eq_none_iff (keyByName ds) n
  rw [lookup_keyByName, List.getLast?_eq_none_iff, List.filter_eq_nil_iff] at h
  constructor
  · intro hm
    by_contra hne
    push_neg at hne
    exact (h.mp (by intro d hd; simpa using hne d hd)) hm
  · rintro ⟨d, hd, rfl⟩
    by_contra hm
    have := (h.mpr hm) d hd
    simp at this

theorem filter_nameKey_of_nodup (ds : List IndexDecl) (hn : (ds.map nameKey).Nodup)
    (d : IndexDecl) (hd : d ∈ ds) : (ds.filter fun d' => nameKey d' == nameKey d) = [d] := by
  induction ds with
  | nil => simp at hd
  | cons x rest ih =>
    simp only [List.map_cons, List.nodup_cons] at hn
    rcases List.mem_cons.mp hd with h | h
    · subst h
      have : List.filter (fun d' => nameKey d' == nameKey d) rest = [] := by
        rw [List.filter_eq_nil_iff]
        intro e he hk
        simp only [beq_iff_eq] at hk
        exact hn.1 (hk ▸ List.mem_map_of_mem nameKey he)
      simp [List.filter_cons, this]
    · have hx : ¬ nameKey x = nameKey d := by
        intro e
        exact hn.1 (e ▸ List.mem_map_of_mem nameKey h)
      simp only [List.filter_cons, beq_iff_eq, hx, if_false]
      exact ih hn.2 h

/-- When the names are distinct, `_.keyBy` files every declaration, and only
those, under its own name. -/
theorem lookup_keyByName_of_nodup (ds : List IndexDecl) (hn : (ds.map nameKey).Nodup)
    (n : String) (d : IndexDecl) :
    lookup n (keyByName ds) = some d ↔ d ∈ ds ∧ nameKey d = n := by
  rw [lookup_keyByName]
  constructor
  · intro h
    have hm := List.mem_of_getLast?_eq_some h
    simp only [List.mem_filter, beq_iff_eq] at hm
    exact hm
  · rintro ⟨hd, rfl⟩
    rw [filter_nameKey_of_nodup ds hn d hd]
    rfl

/-! ## The constructor -/

theorem validate_value_eq (config : Config) :
    (configSchema.validate config).value = config ∨
      (configSchema.validate config).value =
        { config with timestamps := some (config.timestamps.getD false) } := by
  unfold configSchema.validate
  by_cases h : (configViolationsBeforeTimestamps config).isEmpty = true
  · right; simp [h]
  · left; simp [h]

theorem validate_value_fields (config : Config) :
    (configSchema.validate config).value.hashKey = config.hashKey ∧
    (configSchema.validate config).value.rangeKey = config.rangeKey ∧
    (configSchema.validate config).value.tableName = config.tableName ∧
    (configSchema.validate config).value.indexes = config.indexes ∧
    (configSchema.validate config).value.schema = config.schema ∧
    (configSchema.validate config).value.createdAt = config.createdAt ∧
    (configSchema.validate config).value.updatedAt = config.updatedAt ∧
    ((configSchema.validate config).value.timestamps = some true ↔ config.timestamps = some true) := by
  rcases validate_value_eq config with h | h <;> rw [h]
  · simp
  · refine ⟨rfl, rfl, rfl, rfl, rfl, rfl, rfl, ?_⟩
    cases config.timestamps <;> simp

/-- The logical schema is built from the config as given: validation changes
nothing that the construction reads. -/
theorem modelSchema_validate (config : Config) :
    modelSchema (configSchema.validate config).value = modelSchema config := by
  obtain ⟨-, -, -, -, hs, hc, hu, ht⟩ := validate_value_fields config
  unfold modelSchema
  rw [hs, hc, hu]
  by_cases h : config.timestamps = some true
  · simp [h, ht.mpr h]
  · have h' : ¬ (configSchema.validate config).value.timestamps = some true := fun e => h (ht.mp e)
    simp [h, h']

/-- The fields of a constructed schema, read off the config. -/
theorem Schema.new_fields (config : Config) (s : Schema) (h : Schema.new config = .ok s) :
    modelSchema config = .ok s._modelSchema ∧
    parseDynamoTypes s._modelSchema.describe = .ok s._modelDatatypes ∧
    s.globalIndexes = keyByName (filterType "global" (config.indexes.getD [])) ∧
    s.secondaryIndexes = keyByName (filterType "local" (config.indexes.getD [])) ∧
    s.validationOptions = config.validation ∧
    s.hashKey = config.hashKey ∧ s.rangeKey = config.rangeKey ∧
    s.tableName = config.tableName ∧
    s.createdAt = config.createdAt ∧ s.updatedAt = config.updatedAt := by
  obtain ⟨hh, hr, htn, hi, -, hc, hu, -⟩ := validate_value_fields config
  unfold Schema.new at h
  simp only at h
  rw [modelSchema_validate] at h
  cases hm : modelSchema config with
  | error e => rw [hm] at h; simp at h
  | ok model =>
    rw [hm] at h
    simp only at h
    cases hp : parseDynamoTypes model.describe with
    | error e => rw [hp] at h; simp at h
    | ok dt =>
      rw [hp] at h
      simp only [Except.ok.injEq] at h
      subst h
      rw [hi, hh, hr, htn, hc, hu]
      refine ⟨rfl, hp, ?_, ?_, rfl, rfl, rfl, rfl, rfl, rfl⟩
      · cases config.indexes <;> rfl
      · cases config.indexes <;> rfl

/-- The constructor returns a schema as soon as the logical schema can be built
and the type mapper returns on its description. -/
theorem Schema.new_isOk (config : Config) (model : JoiSchema) (dt : JsVal)
    (hm : modelSchema config = .ok model) (hp : parseDynamoTypes model.describe = .ok dt) :
    ∃ s, Schema.new config = .ok s ∧ s._modelSchema = model ∧ s._modelDatatypes = dt := by
  unfold Schema.new
  simp only
  rw [modelSchema_validate, hm]
  simp only [hp]
  exact ⟨_, rfl, rfl, rfl⟩

/-- The logical schema before the timestamp fields, when `schema` is a plain
object, an object schema, or left out: an object schema whose keys are the
declared attributes. -/
theorem baseModelSchema_object (schema : Option SchemaDecl)
    (hobj : ∀ j, schema = some (.joi j) → j.type = "object") :
    ∃ metas ch, baseModelSchema schema = .ok (.mk "object" metas ch) ∧
      ch.getD [] = declaredAttributes schema := by
  cases schema with
  | none => exact ⟨[], none, rfl, rfl⟩
  | some d =>
    cases d with
    | plain fields =>
      cases fields with
      | nil => exact ⟨[], some [], rfl, rfl⟩
      | cons f rest =>
        refine ⟨[], some (f :: rest), ?_, rfl⟩
        simp [baseModelSchema, JoiSchema.setKeys, Joi.object, JoiSchema.type, JoiSchema.metas,
          JoiSchema.children]
    | joi j =>
      obtain ⟨t, m, ch⟩ := j
      have ht : t = "object" := hobj _ rfl
      subst ht
      exact ⟨m, ch, rfl, rfl⟩

/-- The type mapper returns on the description of every object schema. -/
theorem parseDynamoTypes_describe_object_isOk (metas : List (List (String × JsVal)))
    (ch : Option (List (String × JoiSchema))) :
    ∃ dt, parseDynamoTypes (JoiSchema.describe (.mk "object" metas ch)) = .ok dt := by
  cases ch with
  | some cs =>
    rw [parseDynamoTypes_eq, isObjectWithChildren_describe]
    simp only [JoiSchema.type, JoiSchema.children, beq_self_eq_true, Option.isSome_some,
      Bool.and_self, if_true]
    rw [childrenOf_describe (.mk "object" metas (some cs)) cs rfl]
    obtain ⟨m, hm⟩ := parseDynamoTypes_describeChildren_isOk cs (attributeType_children_isOk cs)
    exact ⟨_, hm⟩
  | none =>
    rw [parseDynamoTypes_eq, isObjectWithChildren_describe]
    simp only [JoiSchema.children, Option.isSome_none, Bool.and_false, Bool.false_eq_true,
      if_false]
    cases hm : metas.isEmpty <;>
      simp [JoiSchema.describe, hm, JsVal.entries, reduceTypes, entryType, JsVal.prop,
        findDynamoTypeMetadata, findDynamoMeta, JsVal.truthy, JsVal.isStr, wireType]

/-- The constructor returns a schema when `schema` is a plain object, an object
schema, or left out. -/
theorem Schema.new_isOk_of_object (config : Config)
    (hobj : ∀ j, config.schema = some (.joi j) → j.type = "object") :
    ∃ s, Schema.new config = .ok s := by
  obtain ⟨metas, ch, hbase, -⟩ := baseModelSchema_object config.schema hobj
  have hmodel : ∃ ch', modelSchema config = .ok (.mk "object" metas ch') := by
    unfold modelSchema
    rw [hbase]
    by_cases hts : config.timestamps = some true
    · simp only [hts, if_true, JoiSchema.setKeys, JoiSchema.type]
      cases timestampValids config.createdAt config.updatedAt with
      | nil => exact ⟨_, rfl⟩
      | cons v rest => exact ⟨_, rfl⟩
    · simp only [hts, if_false]
      exact ⟨_, rfl⟩
  obtain ⟨ch', hm⟩ := hmodel
  obtain ⟨dt, hdt⟩ := parseDynamoTypes_describe_object_isOk metas ch'
  obtain ⟨s, hs, -⟩ := Schema.new_isOk config _ _ hm hdt
  exact ⟨s, hs⟩

/-! ## Claims about the type mapper -/

/-- C1: for every descriptor tree whose root is a nested object with a children
map, `parseDynamoTypes` returns a mapping whose keys are exactly the children's
field names; a child that is itself a nested object with a children map is
mapped to `parseDynamoTypes` of its children, every other child to the single
tag (a string or `null`) that `findDynamoTypeMetadata` gives it; the recursion
returns on every finite tree, and on no value at all does it reach the bound
that the embedding puts on its depth. -/
theorem parseDynamoTypes_nested_object (metas : List (List (String × JsVal)))
    (cs : List (String × JoiSchema)) (hn : KeysNodup cs) :
    (∃ mapped, parseDynamoTypes (JoiSchema.describe (.mk "object" metas (some cs))) = .ok (.obj mapped) ∧
      keysOf mapped = keysOf cs ∧
      ∀ k c, (k, c) ∈ cs →
        (∀ cs', c.type = "object" → c.children = some cs' →
          ∃ r, parseDynamoTypes (.obj (describeChildren cs')) = .ok (.obj r) ∧
            lookup k mapped = some (.obj r)) ∧
        (¬ (c.type = "object" ∧ c.children.isSome = true) →
          ∃ tag, findDynamoTypeMetadata c.describe = .ok tag ∧
            (tag = .null ∨ ∃ s, tag = .str s) ∧ lookup k mapped = some tag)) ∧
    ∀ data : JsVal, parseDynamoTypes data ≠ .error .outOfFuel := by
  refine ⟨?_, fun data => parseDynamoTypes_ne_outOfFuel (data.depth + 1) data (Nat.lt_succ_self _)⟩
  obtain ⟨mapped, hparse, hkeys, -, hentries⟩ := parseDynamoTypes_describe_object metas cs hn
  refine ⟨mapped, hparse, hkeys, ?_⟩
  intro k c hc
  obtain ⟨r, hr, hlook⟩ := hentries k c hc
  rw [attributeType, entryType_describe] at hr
  constructor
  · intro cs' ht hch
    simp only [hch, ht, if_true] at hr
    obtain ⟨m, hm⟩ := parseDynamoTypes_describeChildren_isOk cs' (attributeType_children_isOk cs')
    rw [hm] at hr
    cases hr
    exact ⟨m, hm, hlook⟩
  · intro hnot
    obtain ⟨tag, htag, hshape⟩ := findDynamoTypeMetadata_describe_shape c
    have : findDynamoTypeMetadata c.describe = .ok r := by
      cases hch : c.children with
      | none => simpa [hch] using hr
      | some cs' =>
        have ht : ¬ c.type = "object" := fun h => hnot ⟨h, by simp [hch]⟩
        simpa [hch, ht] using hr
    rw [this] at htag
    cases htag
    exact ⟨r, this, hshape, hlook⟩

theorem parseDynamoTypes_nested_object_witness :
    KeysNodup sampleChildren ∧
      ∃ mapped, parseDynamoTypes (JoiSchema.describe (.mk "object" [] (some sampleChildren)))
          = .ok (.obj mapped) ∧ keysOf mapped = ["tags", "address"] :=
  ⟨by decide,
    (parseDynamoTypes_nested_object [] sampleChildren (by decide)).1.elim
      fun mapped h => ⟨mapped, h.1, h.2.1⟩⟩

/-- C2: for every descriptor none of whose metadata entries carries a string
`dynamoType`, `findDynamoTypeMetadata` returns `S` for kind string, `DATE` for
date, `N` for number, `BOOL` for boolean, `B` for binary, `L` for array, and
`null`, not an error, for every other kind; a nested object declared without
children is one of these. -/
theorem findDynamoTypeMetadata_by_kind (c : JoiSchema)
    (h : ∀ m ∈ c.metas, ∀ s, lookup "dynamoType" m ≠ some (.str s)) :
    findDynamoTypeMetadata c.describe =
      .ok (if c.type = "string" then .str "S"
        else if c.type = "date" then .str "DATE"
        else if c.type = "number" then .str "N"
        else if c.type = "boolean" then .str "BOOL"
        else if c.type = "binary" then .str "B"
        else if c.type = "array" then .str "L"
        else .null) ∧
      (c.type = "object" → c.children = none → findDynamoTypeMetadata c.describe = .ok .null) := by
  have hfind : c.metas.find? (fun m => ((lookup "dynamoType" m).getD .undefined).isString) = none := by
    rw [List.find?_eq_none]
    intro m hm
    cases hl : lookup "dynamoType" m with
    | none => simp [JsVal.isString]
    | some v =>
      cases v with
      | str s => exact absurd hl (h m hm s)
      | _ => simp [JsVal.isString]
  have hmain := findDynamoTypeMetadata_describe c
  rw [hfind] at hmain
  simp only [wireType, JsVal.isStr, beq_iff_eq] at hmain
  refine ⟨hmain, ?_⟩
  intro ht _
  rw [hmain, ht]
  rfl

theorem findDynamoTypeMetadata_by_kind_witness :
    findDynamoTypeMetadata (JoiSchema.describe (.mk "binary" [[("unit", .str "kb")]] none)) = .ok (.str "B") :=
  (findDynamoTypeMetadata_by_kind (.mk "binary" [[("unit", .str "kb")]] none) (by
    intro m hm s
    simp only [JoiSchema.metas, List.mem_singleton] at hm
    subst hm
    simp [lookup])).1

/-- C3: for every descriptor whose metadata list has an entry with a string
`dynamoType`, `findDynamoTypeMetadata` returns the `dynamoType` of the first
such entry, whatever the structural kind; the schemas of
`Schema.types.stringSet`, `numberSet` and `binarySet`, of structural kind array,
get `SS`, `NS` and `BS`. -/
theorem findDynamoTypeMetadata_override :
    (∀ (t : String) (children : Option (List (String × JoiSchema)))
        (before after : List (List (String × JsVal))) (m : List (String × JsVal)) (s : String),
        (∀ m' ∈ before, ∀ s', lookup "dynamoType" m' ≠ some (.str s')) →
        lookup "dynamoType" m = some (.str s) →
        findDynamoTypeMetadata (JoiSchema.describe (.mk t (before ++ m :: after) children))
          = .ok (.str s)) ∧
      (Schema.types.stringSet.type = "array" ∧
        findDynamoTypeMetadata Schema.types.stringSet.describe = .ok (.str "SS")) ∧
      (Schema.types.numberSet.type = "array" ∧
        findDynamoTypeMetadata Schema.types.numberSet.describe = .ok (.str "NS")) ∧
      (Schema.types.binarySet.type = "array" ∧
        findDynamoTypeMetadata Schema.types.binarySet.describe = .ok (.str "BS")) := by
  refine ⟨?_, ⟨rfl, rfl⟩, ⟨rfl, rfl⟩, ⟨rfl, rfl⟩⟩
  intro t children before after m s hbefore hm
  have hfind : (before ++ m :: after).find?
      (fun m => ((lookup "dynamoType" m).getD .undefined).isString) = some m := by
    induction before with
    | nil => simp [List.find?_cons, hm, JsVal.isString]
    | cons b rest ih =>
      have hb : ((lookup "dynamoType" b).getD JsVal.undefined).isString = false := by
        cases hl : lookup "dynamoType" b with
        | none => simp [JsVal.isString]
        | some v =>
          cases v with
          | str s' => exact absurd hl (hbefore b (List.mem_cons_self _ _) s')
          | _ => simp [JsVal.isString]
      simp only [List.cons_append, List.find?_cons, hb]
      exact ih (fun m' hm' => hbefore m' (List.mem_cons_of_mem _ hm'))
  have hmain := findDynamoTypeMetadata_describe (.mk t (before ++ m :: after) children)
  simp only [JoiSchema.metas] at hmain
  rw [hfind] at hmain
  simpa [hm] using hmain

theorem findDynamoTypeMetadata_override_witness :
    findDynamoTypeMetadata sampleOverride.describe = .ok (.str "N") :=
  findDynamoTypeMetadata_override.1 "date" none [[("unit", .str "ms")]] [] [("dynamoType", .str "N")] "N"
    (by
      intro m' hm' s'
      simp only [List.mem_singleton] at hm'
      subst hm'
      simp [lookup])
    rfl

/-! ## Claims about the timestamp fields -/

theorem timestampValids_absent :
    timestampValids .absent .absent = [("createdAt", Joi.date), ("updatedAt", Joi.date)] := rfl

/-- With `timestamps` on and both names left out, the logical schema holds the
declared attributes that are not named like a timestamp field, followed by the
two timestamp fields. -/
theorem modelSchema_default_timestamps (config : Config) (hts : config.timestamps = some true)
    (hc : config.createdAt = .absent) (hu : config.updatedAt = .absent)
    (hobj : ∀ j, config.schema = some (.joi j) → j.type = "object") :
    ∃ metas, modelSchema config = .ok (.mk "object" metas
      (some (((declaredAttributes config.schema).filter
          fun c => !(["createdAt", "updatedAt"].contains c.1)) ++
        [("createdAt", Joi.date), ("updatedAt", Joi.date)]))) := by
  obtain ⟨metas, ch, hbase, hch⟩ := baseModelSchema_object config.schema hobj
  refine ⟨metas, ?_⟩
  unfold modelSchema
  rw [hbase]
  simp only [hts, if_true, hc, hu, timestampValids_absent, JoiSchema.setKeys, JoiSchema.type,
    JoiSchema.metas, JoiSchema.children, hch, keysOf, List.map_cons, List.map_nil]

/-- C4, as amended: for every config that satisfies `configSchema`, with
timestamps enabled and neither `createdAt` nor `updatedAt` supplied, whose
`schema` is a plain object, an object schema or left out, the compiled
`_modelDatatypes` holds the keys `createdAt` and `updatedAt`, both tagged
`DATE`, and every declared attribute whose name is neither of the two with its
own entry; an injected field takes the place of a declared attribute of the
same name. -/
theorem timestamps_in_type_map (config : Config) (_hvalid : configSchema config = [])
    (hts : config.timestamps = some true)
    (hc : config.createdAt = .absent) (hu : config.updatedAt = .absent)
    (hobj : ∀ j, config.schema = some (.joi j) → j.type = "object")
    (hn : KeysNodup (declaredAttributes config.schema)) :
    ∃ s, Schema.new config = .ok s ∧
      lookup "createdAt" s._modelDatatypes.entries = some (.str "DATE") ∧
      lookup "updatedAt" s._modelDatatypes.entries = some (.str "DATE") ∧
      ∀ k c, (k, c) ∈ declaredAttributes config.schema → k ≠ "createdAt" → k ≠ "updatedAt" →
        ∃ r, attributeType c.describe = .ok r ∧ lookup k s._modelDatatypes.entries = some r := by
  obtain ⟨metas, hmodel⟩ := modelSchema_default_timestamps config hts hc hu hobj
  have hnodup : KeysNodup (((declaredAttributes config.schema).filter
      fun c => !(["createdAt", "updatedAt"].contains c.1)) ++
        [("createdAt", Joi.date), ("updatedAt", Joi.date)]) := by
    unfold KeysNodup keysOf at hn ⊢
    rw [List.map_append, List.nodup_append]
    refine ⟨(hn.sublist (List.Sublist.map _ (List.filter_sublist _))), by decide, ?_⟩
    intro k hk hk'
    simp only [List.mem_map, List.mem_filter] at hk
    obtain ⟨⟨k', c⟩, ⟨-, hnot⟩, rfl⟩ := hk
    simp only [List.map_cons, List.map_nil] at hk'
    simp only [List.mem_cons, List.mem_singleton, List.not_mem_nil, or_false] at hk'
    simp at hnot
    rcases hk' with h | h
    · exact hnot.1 h
    · exact hnot.2 h
  obtain ⟨mapped, hparse, -, -, hentries⟩ := parseDynamoTypes_describe_object metas _ hnodup
  obtain ⟨s, hs, -, hdt⟩ := Schema.new_isOk config _ _ hmodel hparse
  refine ⟨s, hs, ?_, ?_, ?_⟩
  · obtain ⟨r, hr, hl⟩ := hentries "createdAt" Joi.date (by simp)
    have : attributeType Joi.date.describe = .ok (.str "DATE") := rfl
    rw [this] at hr
    cases hr
    rw [hdt]; exact hl
  · obtain ⟨r, hr, hl⟩ := hentries "updatedAt" Joi.date (by simp)
    have : attributeType Joi.date.describe = .ok (.str "DATE") := rfl
    rw [this] at hr
    cases hr
    rw [hdt]; exact hl
  · intro k c hmem hk1 hk2
    obtain ⟨r, hr, hl⟩ := hentries k c (by
      apply List.mem_append_left
      simp only [List.mem_filter]
      exact ⟨hmem, by simp [hk1, hk2]⟩)
    exact ⟨r, hr, by rw [hdt]; exact hl⟩

theorem timestamps_in_type_map_witness :
    ∃ s, Schema.new sampleTimestamps = .ok s ∧
      lookup "createdAt" s._modelDatatypes.entries = some (.str "DATE") ∧
      lookup "updatedAt" s._modelDatatypes.entries = some (.str "DATE") :=
  (timestamps_in_type_map sampleTimestamps (by decide) rfl rfl rfl (by intro j h; cases h)
    (by decide)).elim fun s h => ⟨s, h.1, h.2.1, h.2.2.1⟩

/-- C4, as stated, fails on a config that declares an attribute named
`createdAt`: no compiled type map holds that attribute with its own entry, `S`,
next to `createdAt` tagged `DATE`. -/
theorem timestamps_claim_fails_on_clash :
    configSchema sampleTimestampClash = [] ∧
    sampleTimestampClash.timestamps = some true ∧
    sampleTimestampClash.createdAt = .absent ∧ sampleTimestampClash.updatedAt = .absent ∧
    ¬ ∃ s, Schema.new sampleTimestampClash = .ok s ∧
      (∀ k c, (k, c) ∈ declaredAttributes sampleTimestampClash.schema →
        ∃ r, attributeType c.describe = .ok r ∧ lookup k s._modelDatatypes.entries = some r) ∧
      lookup "createdAt" s._modelDatatypes.entries = some (.str "DATE") ∧
      lookup "updatedAt" s._modelDatatypes.entries = some (.str "DATE") := by
  refine ⟨by decide, rfl, rfl, rfl, ?_⟩
  rintro ⟨s, hs, hdecl, hcreated, -⟩
  obtain ⟨r, hr, hl⟩ := hdecl "createdAt" Joi.string (by simp [declaredAttributes, sampleTimestampClash])
  have hS : attributeType Joi.string.describe = .ok (.str "S") := rfl
  rw [hS] at hr
  cases hr
  rw [hcreated] at hl
  simp at hl

theorem timestamp_names_nonempty_of_valid (config : Config) (h : configSchema config = []) :
    config.createdAt ≠ .name "" ∧ config.updatedAt ≠ .name "" := by
  unfold configSchema at h
  have h2 := (List.append_eq_nil.mp h).2
  unfold configViolationsAfterTimestamps at h2
  obtain ⟨h3, h4⟩ := List.append_eq_nil.mp h2
  obtain ⟨hc, hu⟩ := List.append_eq_nil.mp h3
  constructor
  · intro e; rw [e] at hc; simp at hc
  · intro e; rw [e] at hu; simp at hu

theorem assignField_of_ne {α : Type} (k : String) (v : α) (object : List (String × α))
    (h : k ≠ "__proto__") : assignField k v object = setProp k v object := by
  simp [assignField, h]

theorem mem_setProp {α : Type} (k : String) (v : α) (object : List (String × α))
    (p : String × α) (h : p ∈ setProp k v object) : p.2 = v ∨ p ∈ object := by
  induction object with
  | nil =>
    simp only [setProp, List.mem_singleton] at h
    subst h
    exact Or.inl rfl
  | cons q rest ih =>
    obtain ⟨k', v'⟩ := q
    by_cases hk : k' = k
    · simp only [setProp, hk, if_true, List.mem_cons] at h
      rcases h with h | h
      · subst h; exact Or.inl rfl
      · exact Or.inr (List.mem_cons_of_mem _ h)
    · simp only [setProp, hk, if_false, List.mem_cons] at h
      rcases h with h | h
      · subst h; exact Or.inr (List.mem_cons_self _ _)
      · rcases ih h with h' | h'
        · exact Or.inl h'
        · exact Or.inr (List.mem_cons_of_mem _ h')

theorem mem_assignField {α : Type} (k : String) (v : α) (object : List (String × α))
    (p : String × α) (h : p ∈ assignField k v object) : p.2 = v ∨ p ∈ object := by
  unfold assignField at h
  by_cases hk : k = "__proto__"
  · simp only [hk, if_true] at h
    exact Or.inr h
  · simp only [hk, if_false] at h
    exact mem_setProp k v object p h

theorem createdAtParamName_ne_proto (createdAt : TimestampOpt)
    (h : createdAt ≠ .name "__proto__") : createdAtParamName createdAt ≠ "__proto__" := by
  cases createdAt with
  | absent => simp [createdAtParamName]
  | flag b => simp [createdAtParamName]
  | name n =>
    have hn : n ≠ "__proto__" := fun e => h (by rw [e])
    unfold createdAtParamName
    by_cases he : n = ""
    · simp [he]
    · simp [he, hn]

theorem updatedAtParamName_ne_proto (updatedAt : TimestampOpt)
    (h : updatedAt ≠ .name "__proto__") : updatedAtParamName updatedAt ≠ "__proto__" := by
  cases updatedAt with
  | absent => simp [updatedAtParamName]
  | flag b => simp [updatedAtParamName]
  | name n =>
    have hn : n ≠ "__proto__" := fun e => h (by rw [e])
    unfold updatedAtParamName
    by_cases he : n = ""
    · simp [he]
    · simp [he, hn]

/-- When neither name is `__proto__` both assignments set a property. -/
theorem timestampValids_of_names (createdAt updatedAt : TimestampOpt)
    (hc : createdAt ≠ .name "__proto__") (hu : updatedAt ≠ .name "__proto__") :
    timestampValids createdAt updatedAt =
      (if updatedAt.notFalse then
        setProp (updatedAtParamName updatedAt) Joi.date
          (if createdAt.notFalse then setProp (createdAtParamName createdAt) Joi.date [] else [])
      else (if createdAt.notFalse then setProp (createdAtParamName createdAt) Joi.date [] else [])) := by
  unfold timestampValids
  simp only [assignField_of_ne _ _ _ (createdAtParamName_ne_proto _ hc),
    assignField_of_ne _ _ _ (updatedAtParamName_ne_proto _ hu)]

/-- The fields to inject, when neither name is `__proto__`: the created field
unless `createdAt` is `false`, the updated field unless `updatedAt` is `false`,
each under its own name. -/
theorem keysOf_timestampValids (createdAt updatedAt : TimestampOpt)
    (hcp : createdAt ≠ .name "__proto__") (hup : updatedAt ≠ .name "__proto__") (k : String) :
    k ∈ keysOf (timestampValids createdAt updatedAt) ↔
      (createdAt ≠ .flag false ∧ k = createdAtParamName createdAt) ∨
      (updatedAt ≠ .flag false ∧ k = updatedAtParamName updatedAt) := by
  have hset : ∀ (a b : String), keysOf (setProp b Joi.date [(a, Joi.date)]) =
      if a = b then [a] else [a, b] := by
    intro a b
    by_cases hab : a = b <;> simp [setProp, keysOf, hab]
  have hnf : ∀ t : TimestampOpt, t.notFalse = true ↔ t ≠ .flag false := by
    intro t
    cases t with
    | absent => simp [TimestampOpt.notFalse]
    | name n => simp [TimestampOpt.notFalse]
    | flag b => cases b <;> simp [TimestampOpt.notFalse]
  rw [timestampValids_of_names createdAt updatedAt hcp hup]
  by_cases hc : createdAt.notFalse = true <;> by_cases hu : updatedAt.notFalse = true
  · have hc' := (hnf _).mp hc
    have hu' := (hnf _).mp hu
    simp only [hc, hu, if_true, setProp, hset, hc', hu', ne_eq, not_false_eq_true, true_and]
    by_cases hab : createdAtParamName createdAt = updatedAtParamName updatedAt
    · simp [hab, keysOf]
    · simp [hab, keysOf]
  · have hc' := (hnf _).mp hc
    have hu' : updatedAt = .flag false := by
      by_contra hne; exact hu ((hnf _).mpr hne)
    subst hu'
    simp [hc, TimestampOpt.notFalse, setProp, keysOf, hc']
  · have hu' := (hnf _).mp hu
    have hc' : createdAt = .flag false := by
      by_contra hne; exact hc ((hnf _).mpr hne)
    subst hc'
    simp [hu, TimestampOpt.notFalse, setProp, keysOf, hu']
  · have hu' : updatedAt = .flag false := by
      by_contra hne; exact hu ((hnf _).mpr hne)
    have hc' : createdAt = .flag false := by
      by_contra hne; exact hc ((hnf _).mpr hne)
    subst hc'
    subst hu'
    simp [TimestampOpt.notFalse, keysOf]

theorem timestampValids_date (createdAt updatedAt : TimestampOpt) (k : String) (v : JoiSchema)
    (h : (k, v) ∈ timestampValids createdAt updatedAt) : v = Joi.date := by
  unfold timestampValids at h
  simp only at h
  have h1 : ∀ p : String × JoiSchema,
      p ∈ (if createdAt.notFalse = true then
        assignField (createdAtParamName createdAt) Joi.date [] else []) → p.2 = Joi.date := by
    intro p hp
    by_cases hc : createdAt.notFalse = true
    · simp only [hc, if_true] at hp
      rcases mem_assignField _ _ _ p hp with h' | h'
      · exact h'
      · simp at h'
    · simp only [hc, if_false] at hp
      simp at hp
  by_cases hu : updatedAt.notFalse = true
  · simp only [hu, if_true] at h
    rcases mem_assignField _ _ _ _ h with h' | h'
    · exact h'
    · exact h1 _ h'
  · simp only [hu, if_false] at h
    exact h1 _ h

/-- The part of C5 that the code keeps: for a config that satisfies
`configSchema`, has timestamps enabled and names no field `__proto__`, the
fields injected into the logical schema are the created field, if and only if
`createdAt` is not `false`, and the updated field, if and only if `updatedAt`
is not `false`; each is a date field under the name given by its own option
when that is a string and under `createdAt`, respectively `updatedAt`, when the
option is left out or `true`. -/
theorem timestampValids_of_valid (config : Config) (hvalid : configSchema config = [])
    (hts : config.timestamps = some true)
    (hcp : config.createdAt ≠ .name "__proto__") (hup : config.updatedAt ≠ .name "__proto__") :
    (∀ s, Schema.new config = .ok s →
      ∃ base, baseModelSchema config.schema = .ok base ∧
        base.setKeys (timestampValids config.createdAt config.updatedAt) = .ok s._modelSchema) ∧
    (∀ k, k ∈ keysOf (timestampValids config.createdAt config.updatedAt) ↔
      (config.createdAt ≠ .flag false ∧
        k = match config.createdAt with
          | .name n => n
          | _ => "createdAt") ∨
      (config.updatedAt ≠ .flag false ∧
        k = match config.updatedAt with
          | .name n => n
          | _ => "updatedAt")) ∧
    (∀ k v, (k, v) ∈ timestampValids config.createdAt config.updatedAt → v = Joi.date) := by
  obtain ⟨hcne, hune⟩ := timestamp_names_nonempty_of_valid config hvalid
  refine ⟨?_, ?_, fun k v h => timestampValids_date _ _ k v h⟩
  · intro s hs
    obtain ⟨hm, -⟩ := Schema.new_fields config s hs
    unfold modelSchema at hm
    cases hb : baseModelSchema config.schema with
    | error e => rw [hb] at hm; simp at hm
    | ok base =>
      rw [hb] at hm
      simp only [hts, if_true] at hm
      exact ⟨base, rfl, hm⟩
  · intro k
    rw [keysOf_timestampValids _ _ hcp hup]
    have h1 : createdAtParamName config.createdAt =
        (match config.createdAt with
          | .name n => n
          | _ => "createdAt") := by
      cases hc : config.createdAt with
      | absent => rfl
      | flag b => rfl
      | name n =>
        have : n ≠ "" := fun e => hcne (by rw [hc, e])
        simp [createdAtParamName, this]
    have h2 : updatedAtParamName config.updatedAt =
        (match config.updatedAt with
          | .name n => n
          | _ => "updatedAt") := by
      cases hu : config.updatedAt with
      | absent => rfl
      | flag b => rfl
      | name n =>
        have : n ≠ "" := fun e => hune (by rw [hu, e])
        simp [updatedAtParamName, this]
    rw [h1, h2]

/-- On the config `{ hashKey: 'id', schema: { title: Joi.string() }, timestamps:
true, createdAt: 'created', updatedAt: false }` the created field is injected
under `created` and no updated field is injected. -/
theorem timestampValids_renamed :
    configSchema sampleRenamed = [] ∧ sampleRenamed.timestamps = some true ∧
    "created" ∈ keysOf (timestampValids sampleRenamed.createdAt sampleRenamed.updatedAt) ∧
    "updatedAt" ∉ keysOf (timestampValids sampleRenamed.createdAt sampleRenamed.updatedAt) := by
  have h := (timestampValids_of_valid sampleRenamed (by decide) rfl (by decide) (by decide)).2.1
  refine ⟨by decide, rfl, ?_, ?_⟩
  · exact (h "created").mpr (Or.inl ⟨by simp [sampleRenamed], by simp [sampleRenamed]⟩)
  · intro hmem
    rcases (h "updatedAt").mp hmem with ⟨-, h1⟩ | ⟨h2, -⟩
    · simp [sampleRenamed] at h1
    · simp [sampleRenamed] at h2

/-- C5: the claim holds for every config that satisfies `configSchema`, has
timestamps enabled and names no field `__proto__`: the created field is
injected if and only if `createdAt` is not `false`, the updated field if and
only if `updatedAt` is not `false`, each under the name its own option gives.
But the config `{ hashKey: 'id', timestamps: true, createdAt: '', updatedAt:
false }`, in which the validation reports a violation, compiles all the same
and has its created field injected under `createdAt`, not under the string
given; and with `createdAt: '__proto__'`, which satisfies `configSchema`, the
assignment adds no property, so that no created field is among the fields to
inject. -/
theorem timestamp_fields_independent :
    (∀ config : Config, configSchema config = [] → config.timestamps = some true →
      config.createdAt ≠ .name "__proto__" → config.updatedAt ≠ .name "__proto__" →
      (∀ s, Schema.new config = .ok s →
        ∃ base, baseModelSchema config.schema = .ok base ∧
          base.setKeys (timestampValids config.createdAt config.updatedAt) = .ok s._modelSchema) ∧
      (∀ k, k ∈ keysOf (timestampValids config.createdAt config.updatedAt) ↔
        (config.createdAt ≠ .flag false ∧
          k = match config.createdAt with
            | .name n => n
            | _ => "createdAt") ∨
        (config.updatedAt ≠ .flag false ∧
          k = match config.updatedAt with
            | .name n => n
            | _ => "updatedAt")) ∧
      (∀ k v, (k, v) ∈ timestampValids config.createdAt config.updatedAt → v = Joi.date)) ∧
    (sampleEmptyName.timestamps = some true ∧ sampleEmptyName.createdAt = .name "" ∧
      (configSchema.validate sampleEmptyName).error ≠ none ∧
      keysOf (timestampValids sampleEmptyName.createdAt sampleEmptyName.updatedAt)
        = ["createdAt"] ∧
      ∃ s, Schema.new sampleEmptyName = .ok s ∧
        s._modelSchema.children = some [("createdAt", Joi.date)]) ∧
    (configSchema sampleProtoName = [] ∧ sampleProtoName.timestamps = some true ∧
      sampleProtoName.createdAt = .name "__proto__" ∧
      keysOf (timestampValids sampleProtoName.createdAt sampleProtoName.updatedAt)
        = ["updatedAt"]) :=
  ⟨fun config hvalid hts hcp hup => timestampValids_of_valid config hvalid hts hcp hup,
    ⟨rfl, rfl, by decide, rfl, _, rfl, rfl⟩,
    ⟨by decide, rfl, rfl, rfl⟩⟩

/-! ## Claims about the index declarations -/

theorem mem_filterType (t : String) (ds : List IndexDecl) (d : IndexDecl) :
    d ∈ filterType t ds ↔ d ∈ ds ∧ d.type = some t := by
  simp [filterType]

theorem nodup_nameKey_filterType (t : String) (ds : List IndexDecl)
    (hn : (ds.map nameKey).Nodup) : ((filterType t ds).map nameKey).Nodup :=
  hn.sublist (List.Sublist.map _ (List.filter_sublist _))

/-- A declaration that satisfies `secondaryIndexSchema` has a name and is of
type `local` or `global`. -/
theorem type_and_name_of_valid (h : Option String) (d : IndexDecl)
    (hv : secondaryIndexSchema h d = []) :
    (d.type = some "local" ∨ d.type = some "global") ∧ ∃ n, d.name = some n := by
  unfold secondaryIndexSchema at hv
  simp only [List.append_eq_nil] at hv
  obtain ⟨⟨⟨⟨⟨ht, -⟩, -⟩, hname⟩, -⟩, -⟩ := hv
  constructor
  · cases hty : d.type with
    | none => rw [hty] at ht; simp at ht
    | some t =>
      rw [hty] at ht
      by_cases hc : t = "local" ∨ t = "global"
      · rcases hc with hc | hc <;> simp [hc]
      · simp [hc] at ht
  · cases hn : d.name with
    | none => rw [hn] at hname; simp [stringViolations] at hname
    | some n => exact ⟨n, rfl⟩

theorem index_valid_of_valid (config : Config) (hv : configSchema config = [])
    (d : IndexDecl) (hd : d ∈ config.indexes.getD []) :
    secondaryIndexSchema config.hashKey d = [] := by
  unfold configSchema at hv
  have h1 := (List.append_eq_nil.mp hv).1
  unfold configViolationsBeforeTimestamps at h1
  have h2 := (List.append_eq_nil.mp h1).2
  rw [List.flatten_eq_nil_iff] at h2
  exact h2 _ (List.mem_map_of_mem _ hd)

/-- The part of C6 that the code keeps: for every compiled config whose index
declarations have pairwise distinct names, `globalIndexes` maps name to
declaration for exactly the declarations of type `global`, and
`secondaryIndexes` does so for exactly those of type `local`; no name is a key
of both; when the config satisfies `configSchema` the keys of the two mappings
together are the declared index names; and when the config declares no indexes
both mappings are empty. -/
theorem partition_of_distinct_names (config : Config) (s : Schema) (h : Schema.new config = .ok s)
    (hn : ((config.indexes.getD []).map nameKey).Nodup) :
    (∀ n d, lookup n s.globalIndexes = some d ↔
      d ∈ config.indexes.getD [] ∧ d.type = some "global" ∧ nameKey d = n) ∧
    (∀ n d, lookup n s.secondaryIndexes = some d ↔
      d ∈ config.indexes.getD [] ∧ d.type = some "local" ∧ nameKey d = n) ∧
    (∀ n, ¬ (n ∈ keysOf s.globalIndexes ∧ n ∈ keysOf s.secondaryIndexes)) ∧
    (configSchema config = [] →
      ∀ n, (n ∈ keysOf s.globalIndexes ∨ n ∈ keysOf s.secondaryIndexes) ↔
        ∃ d ∈ config.indexes.getD [], d.name = some n) ∧
    (config.indexes.getD [] = [] → s.globalIndexes = [] ∧ s.secondaryIndexes = []) := by
  obtain ⟨-, -, hg, hl, -⟩ := Schema.new_fields config s h
  rw [hg, hl]
  refine ⟨?_, ?_, ?_, ?_, ?_⟩
  · intro n d
    rw [lookup_keyByName_of_nodup _ (nodup_nameKey_filterType _ _ hn), mem_filterType]
    tauto
  · intro n d
    rw [lookup_keyByName_of_nodup _ (nodup_nameKey_filterType _ _ hn), mem_filterType]
    tauto
  · rintro n ⟨h1, h2⟩
    obtain ⟨d1, hd1, hk1⟩ := (mem_keysOf_keyByName n _).mp h1
    obtain ⟨d2, hd2, hk2⟩ := (mem_keysOf_keyByName n _).mp h2
    rw [mem_filterType] at hd1 hd2
    have heq : d1 = d2 := List.inj_on_of_nodup_map hn hd1.1 hd2.1 (hk1.trans hk2.symm)
    subst heq
    rw [hd1.2] at hd2
    simp at hd2
  · intro hv n
    rw [mem_keysOf_keyByName, mem_keysOf_keyByName]
    constructor
    · rintro (⟨d, hd, hk⟩ | ⟨d, hd, hk⟩)
      all_goals
        rw [mem_filterType] at hd
        obtain ⟨-, m, hm⟩ := type_and_name_of_valid _ d (index_valid_of_valid config hv d hd.1)
        refine ⟨d, hd.1, ?_⟩
        rw [← hk, nameKey, hm]
        rfl
    · rintro ⟨d, hd, hname⟩
      obtain ⟨ht, -⟩ := type_and_name_of_valid _ d (index_valid_of_valid config hv d hd)
      have hk : nameKey d = n := by simp [nameKey, hname]
      rcases ht with ht | ht
      · exact Or.inr ⟨d, (mem_filterType _ _ _).mpr ⟨hd, ht⟩, hk⟩
      · exact Or.inl ⟨d, (mem_filterType _ _ _).mpr ⟨hd, ht⟩, hk⟩
  · intro he
    rw [he]
    exact ⟨rfl, rfl⟩

/-- On the config `{ hashKey: 'id', indexes: [byAge, byDate] }` each mapping
holds the declaration of its type. -/
theorem partition_of_sample :
    ∃ s, Schema.new sampleIndexes = .ok s ∧
      lookup "byAge" s.globalIndexes = some sampleGlobalIndex ∧
      lookup "byDate" s.secondaryIndexes = some sampleLocalIndex := by
  obtain ⟨s, hs, -⟩ := Schema.new_isOk sampleIndexes Joi.object (.obj [("type", .null)]) rfl rfl
  have h := partition_of_distinct_names sampleIndexes s hs (by decide)
  refine ⟨s, hs, ?_, ?_⟩
  · exact (h.1 "byAge" sampleGlobalIndex).mpr ⟨by simp [sampleIndexes], rfl, rfl⟩
  · exact (h.2.1 "byDate" sampleLocalIndex).mpr ⟨by simp [sampleIndexes], rfl, rfl⟩

/-- C6: for every compiled config whose index declarations have pairwise
distinct names each mapping holds exactly the declarations of its type under
their names, no name is a key of both, and no declared index gives two empty
mappings; the keys of the two mappings together are the declared index names
when the config satisfies `configSchema`.  But the config `{ hashKey: 'id',
indexes: [{ name: 'x', type: 'other' }, { name: 'y' }] }`, whose names are
distinct and in which the validation reports a violation, compiles all the
same, and both mappings are empty: the names `x` and `y` are in neither. -/
theorem indexes_partitioned :
    (∀ (config : Config) (s : Schema), Schema.new config = .ok s →
      ((config.indexes.getD []).map nameKey).Nodup →
      (∀ n d, lookup n s.globalIndexes = some d ↔
        d ∈ config.indexes.getD [] ∧ d.type = some "global" ∧ nameKey d = n) ∧
      (∀ n d, lookup n s.secondaryIndexes = some d ↔
        d ∈ config.indexes.getD [] ∧ d.type = some "local" ∧ nameKey d = n) ∧
      (∀ n, ¬ (n ∈ keysOf s.globalIndexes ∧ n ∈ keysOf s.secondaryIndexes)) ∧
      (configSchema config = [] →
        ∀ n, (n ∈ keysOf s.globalIndexes ∨ n ∈ keysOf s.secondaryIndexes) ↔
          ∃ d ∈ config.indexes.getD [], d.name = some n) ∧
      (config.indexes.getD [] = [] → s.globalIndexes = [] ∧ s.secondaryIndexes = [])) ∧
    ((sampleOtherTypes.indexes.getD []).map nameKey = ["x", "y"] ∧
      (configSchema.validate sampleOtherTypes).error ≠ none ∧
      ∃ s, Schema.new sampleOtherTypes = .ok s ∧
        s.globalIndexes = [] ∧ s.secondaryIndexes = []) :=
  ⟨fun config s h hn => partition_of_distinct_names config s h hn,
    ⟨rfl, by decide, _, rfl, rfl, rfl⟩⟩

/-! ## Claims about rejected configs -/

/-- C7: on the config `{ hashKey: 'id', indexes: [{ name: 'ix1', type: 'local'
}] }` the validation reports a violation, yet the constructor returns a schema
whose local-index mapping holds `ix1` without a `rangeKey`. -/
theorem local_index_without_rangeKey_compiles :
    (configSchema.validate sampleLocalNoRangeKey).error ≠ none ∧
    ∃ s, Schema.new sampleLocalNoRangeKey = .ok s ∧
      ∃ d, lookup "ix1" s.secondaryIndexes = some d ∧ d.type = some "local" ∧
        d.rangeKey = none :=
  ⟨by decide, _, rfl, _, rfl, rfl, rfl⟩

/-- C8: on the config `{ schema: { email: Joi.string() } }`, which has no
`hashKey`, the validation reports a violation, yet the constructor returns a
schema, with no `hashKey`. -/
theorem missing_hashKey_compiles :
    sampleNoHashKey.hashKey = none ∧
    (configSchema.validate sampleNoHashKey).error ≠ none ∧
    ∃ s, Schema.new sampleNoHashKey = .ok s ∧ s.hashKey = none :=
  ⟨rfl, by decide, _, rfl, rfl⟩

/-- C9: on the config `{ hashKey: 'id', indexes: [{ name: 'gix', type:
'global' }] }` the validation reports a violation, yet the constructor returns
a schema whose global-index mapping holds `gix` without a `hashKey`. -/
theorem global_index_without_hashKey_compiles :
    (configSchema.validate sampleGlobalNoHashKey).error ≠ none ∧
    ∃ s, Schema.new sampleGlobalNoHashKey = .ok s ∧
      ∃ d, lookup "gix" s.globalIndexes = some d ∧ d.type = some "global" ∧
        d.hashKey = none :=
  ⟨by decide, _, rfl, _, rfl, rfl, rfl⟩

/-- C10, as stated, fails on a config with three index declarations named
`ix`: it satisfies `configSchema`, the constructor returns a schema and no
error, the second global declaration has taken the place of the first, and
`ix` is a key of both mappings. -/
theorem duplicate_names_compile :
    configSchema sampleDuplicateNames = [] ∧
    (∀ e, Schema.new sampleDuplicateNames ≠ .error e) ∧
    ∃ s, Schema.new sampleDuplicateNames = .ok s ∧
      lookup "ix" s.globalIndexes = some sampleSecondIx ∧
      lookup "ix" s.secondaryIndexes = some sampleLocalIx ∧
      sampleFirstIx.hashKey ≠ sampleSecondIx.hashKey := by
  refine ⟨by decide, ?_, _, rfl, rfl, rfl, by decide⟩
  intro e h
  have h2 : (Schema.new sampleDuplicateNames).toBool = true := rfl
  rw [h] at h2
  simp [Except.toBool] at h2

/-- C10, as amended: a config that satisfies `configSchema` compiles also when
index declarations share a name, which is no violation; in the compiled schema
each mapping holds under a name the last declaration of its kind with that
name, so that a name declared for both kinds is a key of both mappings. -/
theorem duplicate_names_last_wins (config : Config) (_hvalid : configSchema config = [])
    (hobj : ∀ j, config.schema = some (.joi j) → j.type = "object") :
    ∃ s, Schema.new config = .ok s ∧
      (∀ n, lookup n s.globalIndexes =
        ((config.indexes.getD []).filter
          fun d => d.type == some "global" && nameKey d == n).getLast?) ∧
      (∀ n, lookup n s.secondaryIndexes =
        ((config.indexes.getD []).filter
          fun d => d.type == some "local" && nameKey d == n).getLast?) ∧
      (∀ d1 d2, d1 ∈ config.indexes.getD [] → d2 ∈ config.indexes.getD [] →
        d1.type = some "global" → d2.type = some "local" → nameKey d1 = nameKey d2 →
        nameKey d1 ∈ keysOf s.globalIndexes ∧ nameKey d1 ∈ keysOf s.secondaryIndexes) := by
  obtain ⟨s, h⟩ := Schema.new_isOk_of_object config hobj
  obtain ⟨-, -, hg, hl, -⟩ := Schema.new_fields config s h
  refine ⟨s, h, ?_⟩
  rw [hg, hl]
  refine ⟨?_, ?_, ?_⟩
  · intro n
    rw [lookup_keyByName, filterType, List.filter_filter]
    congr 1
    apply List.filter_congr
    intro d _
    rw [Bool.and_comm]
  · intro n
    rw [lookup_keyByName, filterType, List.filter_filter]
    congr 1
    apply List.filter_congr
    intro d _
    rw [Bool.and_comm]
  · intro d1 d2 h1 h2 t1 t2 hk
    rw [mem_keysOf_keyByName, mem_keysOf_keyByName]
    exact ⟨⟨d1, (mem_filterType _ _ _).mpr ⟨h1, t1⟩, rfl⟩,
      ⟨d2, (mem_filterType _ _ _).mpr ⟨h2, t2⟩, hk.symm⟩⟩

theorem duplicate_names_last_wins_witness :
    configSchema sampleDuplicateNames = [] ∧
    ∃ s, Schema.new sampleDuplicateNames = .ok s ∧
      lookup "ix" s.globalIndexes = some sampleSecondIx ∧
      "ix" ∈ keysOf s.secondaryIndexes := by
  obtain ⟨s, hs, hg, -, hboth⟩ :=
    duplicate_names_last_wins sampleDuplicateNames (by decide) (by intro j h; cases h)
  refine ⟨by decide, s, hs, ?_, ?_⟩
  · rw [hg "ix"]; rfl
  · exact (hboth sampleSecondIx sampleLocalIx (by simp [sampleDuplicateNames])
      (by simp [sampleDuplicateNames]) rfl rfl rfl).2

/-! ## Claims about the hash key of a local index -/

/-- A declaration of type `local` that satisfies `secondaryIndexSchema` gives no
`hashKey` or the one of the context. -/
theorem local_hashKey_of_valid (h : Option String) (d : IndexDecl)
    (hv : secondaryIndexSchema h d = []) (ht : d.type = some "local") :
    d.hashKey = none ∨ d.hashKey = h := by
  unfold secondaryIndexSchema at hv
  simp only [List.append_eq_nil] at hv
  obtain ⟨⟨⟨⟨⟨-, hk⟩, -⟩, -⟩, -⟩, -⟩ := hv
  rw [ht] at hk
  simp only [if_true] at hk
  cases hd : d.hashKey with
  | none => exact Or.inl rfl
  | some k =>
    rw [hd] at hk
    by_cases hc : some k = h
    · exact Or.inr hc
    · simp [hc] at hk

/-- C11, as amended: for every compiled config that satisfies `configSchema`,
each entry of the local-index mapping is a declaration of the config as it was
written: its `hashKey` is the table's primary `hashKey` when the declaration
gives one and absent when the declaration omits it; no default is filled
in. -/
theorem local_index_hashKey (config : Config) (s : Schema)
    (hvalid : configSchema config = []) (h : Schema.new config = .ok s) :
    ∀ n d, lookup n s.secondaryIndexes = some d →
      d ∈ config.indexes.getD [] ∧ d.type = some "local" ∧
        (d.hashKey = none ∨ d.hashKey = s.hashKey) := by
  obtain ⟨-, -, -, hl, -, hh, -⟩ := Schema.new_fields config s h
  intro n d hd
  rw [hl, lookup_keyByName] at hd
  have hm := List.mem_of_getLast?_eq_some hd
  simp only [List.mem_filter] at hm
  obtain ⟨hmem, -⟩ := hm
  obtain ⟨hin, ht⟩ := (mem_filterType _ _ _).mp hmem
  refine ⟨hin, ht, ?_⟩
  rw [hh]
  exact local_hashKey_of_valid _ d (index_valid_of_valid config hvalid d hin) ht

theorem local_index_hashKey_witness :
    configSchema sampleIndexes = [] ∧
    ∃ s, Schema.new sampleIndexes = .ok s ∧
      (sampleLocalIndex.hashKey = none ∨ sampleLocalIndex.hashKey = s.hashKey) := by
  obtain ⟨s, hs, -⟩ := Schema.new_isOk sampleIndexes Joi.object (.obj [("type", .null)]) rfl rfl
  have hl : lookup "byDate" s.secondaryIndexes = some sampleLocalIndex := by
    rw [(Schema.new_fields sampleIndexes s hs).2.2.2.1]; rfl
  exact ⟨by decide, s, hs,
    (local_index_hashKey sampleIndexes s (by decide) hs "byDate" sampleLocalIndex hl).2.2⟩

/-- C11, as stated, fails on a config that satisfies `configSchema` and
declares the local index `byDate` without a `hashKey`: the compiled entry has
no `hashKey`, while the table's is `id`. -/
theorem local_index_hashKey_not_defaulted :
    configSchema sampleIndexes = [] ∧
    ∃ s, Schema.new sampleIndexes = .ok s ∧ s.hashKey = some "id" ∧
      ∃ d, lookup "byDate" s.secondaryIndexes = some d ∧ d.hashKey = none ∧
        d.hashKey ≠ s.hashKey :=
  ⟨by decide, _, rfl, rfl, _, rfl, rfl, by decide⟩

/-! ## Claims about the options of a validation -/

/-- After `_.extend(object, source)` a name holds the value `source` gives it,
and the value `object` had for it when `source` has none. -/
theorem lookup_extend (source : List (String × JsVal)) (hn : KeysNodup source) (k : String) :
    ∀ object : List (String × JsVal),
      lookup k (extend object source) =
        match lookup k source with
        | some v => some v
        | none => lookup k object := by
  induction source with
  | nil => intro object; simp [extend, lookup]
  | cons p rest ih =>
    obtain ⟨k', v'⟩ := p
    intro object
    simp only [KeysNodup, keysOf, List.map_cons, List.nodup_cons] at hn
    have ih' := ih hn.2 (setProp k' v' object)
    simp only [extend, List.foldl_cons] at ih' ⊢
    rw [ih']
    by_cases hk : k' = k
    · subst hk
      have hnone : lookup k' rest = none := (lookup_eq_none_iff rest k').mpr hn.1
      simp [lookup, hnone, lookup_setProp_self]
    · simp [lookup, hk, lookup_setProp_of_ne _ _ _ _ hk]

/-- The options that `validate` hands to Joi and leaves in the caller's
object. -/
theorem Schema.validate_passed (joi : JoiValidate) (s : Schema) (params : JsVal)
    (options : Option (List (String × JsVal))) :
    (Schema.validate joi s params options).passed =
      (match s.validationOptions with
        | some v => extend (options.getD []) v
        | none => options.getD []) ∧
    (Schema.validate joi s params options).options =
      options.map fun _ => (Schema.validate joi s params options).passed :=
  ⟨rfl, rfl⟩

/-- C12, as amended: for every schema with table-wide `validationOptions` V and
every call `validate(record, O)`, the options passed to the underlying
validation give V's value for every key present in V, and O's value only for
keys absent from V: the table-wide options override the per-call ones. -/
theorem validate_table_options_override (joi : JoiValidate) (s : Schema) (record : JsVal)
    (O : Option (List (String × JsVal))) (V : List (String × JsVal))
    (hV : s.validationOptions = some V) (hn : KeysNodup V) (k : String) :
    (∀ v, lookup k V = some v →
      lookup k (Schema.validate joi s record O).passed = some v) ∧
    (lookup k V = none →
      lookup k (Schema.validate joi s record O).passed = lookup k (O.getD [])) := by
  have hp := (Schema.validate_passed joi s record O).1
  rw [hV] at hp
  simp only at hp
  rw [hp, lookup_extend V hn k]
  constructor
  · intro v hv; rw [hv]
  · intro hv; rw [hv]

theorem validate_table_options_override_witness :
    ∃ s, Schema.new sampleConvert = .ok s ∧
      lookup "convert" (Schema.validate sampleJoi s (.obj [("age", .str "42")])
        (some [("convert", .bool true), ("abortEarly", .bool false)])).passed
          = some (.bool false) ∧
      lookup "abortEarly" (Schema.validate sampleJoi s (.obj [("age", .str "42")])
        (some [("convert", .bool true), ("abortEarly", .bool false)])).passed
          = some (.bool false) := by
  obtain ⟨s, hs⟩ := Schema.new_isOk_of_object sampleConvert (by intro j h; cases h)
  have hV : s.validationOptions = some [("convert", .bool false)] :=
    (Schema.new_fields sampleConvert s hs).2.2.2.2.1
  refine ⟨s, hs, ?_, ?_⟩
  · exact (validate_table_options_override sampleJoi s _ _ _ hV (by decide) "convert").1 _ rfl
  · exact (validate_table_options_override sampleJoi s _ _ _ hV (by decide) "abortEarly").2 rfl

/-- C12, as stated, fails with V = `{ convert: false }`: the call
`validate({ age: '42' }, { convert: true })` validates with `convert` false. -/
theorem validate_per_call_option_lost :
    ∃ s, Schema.new sampleConvert = .ok s ∧
      s.validationOptions = some [("convert", .bool false)] ∧
      lookup "convert" (Schema.validate sampleJoi s (.obj [("age", .str "42")])
        (some [("convert", .bool true)])).passed = some (.bool false) :=
  ⟨_, rfl, rfl, rfl⟩

/-- C13: with the table-wide options `{ abortEarly: true }`, `applyDefaults`
runs the underlying validation with `abortEarly` true, for every underlying
validation and every record, although it passes `{ abortEarly: false }`. -/
theorem applyDefaults_abortEarly_overridden :
    ∃ s, Schema.new sampleAbortEarly = .ok s ∧
      ∀ (joi : JoiValidate) (record : JsVal),
        (Schema.validate joi s record (some [("abortEarly", .bool false)])).passed
          = [("abortEarly", .bool true)] ∧
        (Schema.applyDefaults joi s record).value =
          invokeDefaultFunctions (joi s._modelSchema record [("abortEarly", .bool true)]).value :=
  ⟨_, rfl, fun _ _ => ⟨rfl, rfl⟩⟩

/-- C15: a call of `validate` or of `applyDefaults` leaves the schema as it
was: `hashKey`, `rangeKey`, `tableName`, the timestamp settings, both index
mappings, the logical schema, the type map and `validationOptions` are the
same after the call as before it, so that a later call on the schema behaves as
if the earlier one had not been made. -/
theorem validate_leaves_schema (joi : JoiValidate) (s : Schema) (record : JsVal)
    (options : Option (List (String × JsVal))) :
    (Schema.validate joi s record options).schema = s ∧
    (Schema.applyDefaults joi s record).schema = s ∧
    (Schema.validate joi s record options).schema.validationOptions = s.validationOptions ∧
    (Schema.applyDefaults joi s record).schema.validationOptions = s.validationOptions ∧
    (∀ record' options',
      Schema.validate joi (Schema.validate joi s record options).schema record' options' =
        Schema.validate joi s record' options') ∧
    (∀ record',
      Schema.applyDefaults joi (Schema.applyDefaults joi s record).schema record' =
        Schema.applyDefaults joi s record') :=
  ⟨rfl, rfl, rfl, rfl, fun _ _ => rfl, fun _ => rfl⟩

/-- C16, as amended: `validate(record, O)` leaves the caller's object O as it
was when the schema has no table-wide `validationOptions`; when it has
`validationOptions` V, O holds after the call V's value for every key of V and
its own value for every other key. -/
theorem validate_caller_options (joi : JoiValidate) (s : Schema) (record : JsVal)
    (O : List (String × JsVal)) :
    (s.validationOptions = none →
      (Schema.validate joi s record (some O)).options = some O) ∧
    (∀ V, s.validationOptions = some V → KeysNodup V →
      ∃ after, (Schema.validate joi s record (some O)).options = some after ∧
        ∀ k, (∀ v, lookup k V = some v → lookup k after = some v) ∧
          (lookup k V = none → lookup k after = lookup k O)) := by
  obtain ⟨hp, ho⟩ := Schema.validate_passed joi s record (some O)
  constructor
  · intro hnone
    rw [ho, hp, hnone]
    rfl
  · intro V hV hn
    refine ⟨extend O V, ?_, ?_⟩
    · rw [ho, hp, hV]
      rfl
    · intro k
      rw [lookup_extend V hn k]
      constructor
      · intro v hv; rw [hv]
      · intro hv; rw [hv]

/-- C16, as stated, fails with V = `{ convert: false }`: the caller's empty
options object holds `convert: false` after `validate(record, O)`. -/
theorem validate_mutates_caller_options :
    ∃ s, Schema.new sampleConvert = .ok s ∧
      (Schema.validate sampleJoi s (.obj [("age", .str "42")]) (some [])).options
        = some [("convert", .bool false)] ∧
      lookup "convert" ([] : List (String × JsVal)) = none :=
  ⟨_, rfl, rfl, rfl⟩

theorem validate_caller_options_witness :
    ∃ s, Schema.new sampleConvert = .ok s ∧
      ∃ after, (Schema.validate sampleJoi s (.obj [("age", .str "42")])
          (some [("convert", .bool true), ("abortEarly", .bool false)])).options = some after ∧
        lookup "convert" after = some (.bool false) ∧
        lookup "abortEarly" after = some (.bool false) := by
  obtain ⟨s, hs⟩ := Schema.new_isOk_of_object sampleConvert (by intro j h; cases h)
  have hV : s.validationOptions = some [("convert", .bool false)] :=
    (Schema.new_fields sampleConvert s hs).2.2.2.2.1
  obtain ⟨after, hafter, hk⟩ :=
    (validate_caller_options sampleJoi s (.obj [("age", .str "42")])
      [("convert", .bool true), ("abortEarly", .bool false)]).2 _ hV (by decide)
  exact ⟨s, hs, after, hafter, (hk "convert").1 _ rfl, (hk "abortEarly").2 rfl⟩

/-! ## Claims about `applyDefaults` -/

/-- On a tree of plain objects with distinct property names the loop of
`_.mapValues` appends the properties as they are. -/
theorem mapValuesEntries_eq_append :
    ∀ (kvs result : List (String × JsVal)), entriesKeysDistinct kvs = true →
      (keysOf result ++ keysOf kvs).Nodup → mapValuesEntries kvs result = result ++ kvs
  | [], result, _, _ => by simp [mapValuesEntries]
  | (key, .obj inner) :: rest, result, hd, hn => by
    simp only [entriesKeysDistinct, JsVal.keysDistinct, Bool.and_eq_true,
      decide_eq_true_eq] at hd
    have hkey : key ∉ keysOf result := by
      intro hmem
      exact (List.nodup_append.mp hn).2.2 hmem (by simp [keysOf])
    have hn' : (keysOf (result ++ [(key, JsVal.obj inner)]) ++ keysOf rest).Nodup := by
      simpa [keysOf] using hn
    have hin := mapValuesEntries_eq_append inner [] hd.1.2 (by simpa [keysOf] using hd.1.1)
    simp only [List.nil_append] at hin
    simp only [mapValuesEntries, hin, setProp_of_not_mem key _ result hkey]
    rw [mapValuesEntries_eq_append rest _ hd.2 hn']
    simp
  | (key, .undefined) :: rest, result, hd, hn => by
    simp only [entriesKeysDistinct, Bool.and_eq_true] at hd
    have hkey : key ∉ keysOf result := by
      intro hmem
      exact (List.nodup_append.mp hn).2.2 hmem (by simp [keysOf])
    have hn' : (keysOf (result ++ [(key, JsVal.undefined)]) ++ keysOf rest).Nodup := by
      simpa [keysOf] using hn
    simp only [mapValuesEntries, setProp_of_not_mem key _ result hkey]
    rw [mapValuesEntries_eq_append rest _ hd.2 hn']
    simp
  | (key, .null) :: rest, result, hd, hn => by
    simp only [entriesKeysDistinct, Bool.and_eq_true] at hd
    have hkey : key ∉ keysOf result := by
      intro hmem
      exact (List.nodup_append.mp hn).2.2 hmem (by simp [keysOf])
    have hn' : (keysOf (result ++ [(key, JsVal.null)]) ++ keysOf rest).Nodup := by
      simpa [keysOf] using hn
    simp only [mapValuesEntries, setProp_of_not_mem key _ result hkey]
    rw [mapValuesEntries_eq_append rest _ hd.2 hn']
    simp
  | (key, .bool b) :: rest, result, hd, hn => by
    simp only [entriesKeysDistinct, Bool.and_eq_true] at hd
    have hkey : key ∉ keysOf result := by
      intro hmem
      exact (List.nodup_append.mp hn).2.2 hmem (by simp [keysOf])
    have hn' : (keysOf (result ++ [(key, JsVal.bool b)]) ++ keysOf rest).Nodup := by
      simpa [keysOf] using hn
    simp only [mapValuesEntries, setProp_of_not_mem key _ result hkey]
    rw [mapValuesEntries_eq_append rest _ hd.2 hn']
    simp
  | (key, .num b) :: rest, result, hd, hn => by
    simp only [entriesKeysDistinct, Bool.and_eq_true] at hd
    have hkey : key ∉ keysOf result := by
      intro hmem
      exact (List.nodup_append.mp hn).2.2 hmem (by simp [keysOf])
    have hn' : (keysOf (result ++ [(key, JsVal.num b)]) ++ keysOf rest).Nodup := by
      simpa [keysOf] using hn
    simp only [mapValuesEntries, setProp_of_not_mem key _ result hkey]
    rw [mapValuesEntries_eq_append rest _ hd.2 hn']
    simp
  | (key, .str b) :: rest, result, hd, hn => by
    simp only [entriesKeysDistinct, Bool.and_eq_true] at hd
    have hkey : key ∉ keysOf result := by
      intro hmem
      exact (List.nodup_append.mp hn).2.2 hmem (by simp [keysOf])
    have hn' : (keysOf (result ++ [(key, JsVal.str b)]) ++ keysOf rest).Nodup := by
      simpa [keysOf] using hn
    simp only [mapValuesEntries, setProp_of_not_mem key _ result hkey]
    rw [mapValuesEntries_eq_append rest _ hd.2 hn']
    simp
  | (key, .func b) :: rest, result, hd, hn => by
    simp only [entriesKeysDistinct, Bool.and_eq_true] at hd
    have hkey : key ∉ keysOf result := by
      intro hmem
      exact (List.nodup_append.mp hn).2.2 hmem (by simp [keysOf])
    have hn' : (keysOf (result ++ [(key, JsVal.func b)]) ++ keysOf rest).Nodup := by
      simpa [keysOf] using hn
    simp only [mapValuesEntries, setProp_of_not_mem key _ result hkey]
    rw [mapValuesEntries_eq_append rest _ hd.2 hn']
    simp
  | (key, .arr b) :: rest, result, hd, hn => by
    simp only [entriesKeysDistinct, Bool.and_eq_true] at hd
    have hkey : key ∉ keysOf result := by
      intro hmem
      exact (List.nodup_append.mp hn).2.2 hmem (by simp [keysOf])
    have hn' : (keysOf (result ++ [(key, JsVal.arr b)]) ++ keysOf rest).Nodup := by
      simpa [keysOf] using hn
    simp only [mapValuesEntries, setProp_of_not_mem key _ result hkey]
    rw [mapValuesEntries_eq_append rest _ hd.2 hn']
    simp

/-- C14: `internals.invokeDefaultFunctions` is the identity on every tree of
plain objects, so that every leaf that is no plain object, a function
included, stays as it is and where it is; hence `applyDefaults(record)`
returns the `value` of `validate(record, { abortEarly: false })` whenever that
value is a tree of plain objects. -/
theorem applyDefaults_is_validated_value :
    (∀ kvs, (JsVal.obj kvs).keysDistinct = true →
      invokeDefaultFunctions (.obj kvs) = .obj kvs) ∧
    (∀ (joi : JoiValidate) (s : Schema) (record : JsVal),
      (Schema.validate joi s record (some [("abortEarly", .bool false)])).result.value.isPlainObject
        = true →
      (Schema.validate joi s record (some [("abortEarly", .bool false)])).result.value.keysDistinct
        = true →
      (Schema.applyDefaults joi s record).value =
        (Schema.validate joi s record (some [("abortEarly", .bool false)])).result.value) := by
  have hid : ∀ kvs, (JsVal.obj kvs).keysDistinct = true →
      invokeDefaultFunctions (.obj kvs) = .obj kvs := by
    intro kvs hd
    simp only [JsVal.keysDistinct, Bool.and_eq_true, decide_eq_true_eq] at hd
    have := mapValuesEntries_eq_append kvs [] hd.2 (by simpa [keysOf] using hd.1)
    simp only [invokeDefaultFunctions, this, List.nil_append]
  refine ⟨hid, ?_⟩
  intro joi s record hp hd
  show invokeDefaultFunctions _ = _
  cases hv : (Schema.validate joi s record (some [("abortEarly", .bool false)])).result.value with
  | obj kvs => rw [hv] at hd; exact hid kvs hd
  | undefined => rw [hv] at hp; simp [JsVal.isPlainObject] at hp
  | null => rw [hv] at hp; simp [JsVal.isPlainObject] at hp
  | bool b => rw [hv] at hp; simp [JsVal.isPlainObject] at hp
  | num b => rw [hv] at hp; simp [JsVal.isPlainObject] at hp
  | str b => rw [hv] at hp; simp [JsVal.isPlainObject] at hp
  | func b => rw [hv] at hp; simp [JsVal.isPlainObject] at hp
  | arr b => rw [hv] at hp; simp [JsVal.isPlainObject] at hp

theorem applyDefaults_is_validated_value_witness :
    sampleRecord.keysDistinct = true ∧ invokeDefaultFunctions sampleRecord = sampleRecord :=
  ⟨rfl, applyDefaults_is_validated_value.1 _ rfl⟩

/-! ## Claims about the keys of the type map -/

/-- C17: when the logical schema has keys, the keys of the type map are the
keys of the logical schema, with no wrapper level.  But the config
`{ hashKey: 'id' }`, which declares no `schema` and leaves timestamps out,
compiles to the type map `{ type: null }`, not to the empty one; and the config
that declares `title` and sets `timestamps: true, createdAt: false, updatedAt:
false` compiles to the empty type map, without `title`. -/
theorem type_map_keys :
    (∀ config s, Schema.new config = .ok s →
      ∀ metas cs, s._modelSchema = .mk "object" metas (some cs) → KeysNodup cs →
        keysOf s._modelDatatypes.entries = keysOf cs) ∧
    (configSchema sampleBare = [] ∧ declaredAttributes sampleBare.schema = [] ∧
      sampleBare.timestamps = none ∧
      ∃ s, Schema.new sampleBare = .ok s ∧ s._modelDatatypes = .obj [("type", .null)]) ∧
    (configSchema sampleSuppressed = [] ∧
      declaredAttributes sampleSuppressed.schema = [("title", Joi.string)] ∧
      ∃ s, Schema.new sampleSuppressed = .ok s ∧ s._modelDatatypes = .obj []) := by
  refine ⟨?_, ⟨by decide, rfl, rfl, _, rfl, rfl⟩, ⟨by decide, rfl, _, rfl, rfl⟩⟩
  intro config s hs metas cs hm hn
  obtain ⟨-, hp, -⟩ := Schema.new_fields config s hs
  obtain ⟨mapped, hparse, hkeys, -⟩ := parseDynamoTypes_describe_object metas cs hn
  rw [hm, hparse] at hp
  simp only [Except.ok.injEq] at hp
  rw [← hp]
  exact hkeys

/-! ## Claims about disabled timestamps -/

/-- With `timestamps` false or left out the logical schema is the one built
from `schema` alone. -/
theorem modelSchema_of_timestamps_off (config : Config)
    (h : config.timestamps = none ∨ config.timestamps = some false) :
    modelSchema config = baseModelSchema config.schema := by
  have hne : ¬ config.timestamps = some true := by
    rcases h with h | h <;> rw [h] <;> simp
  unfold modelSchema
  cases baseModelSchema config.schema with
  | error e => rfl
  | ok base => simp [hne]

/-- The logical schema and the type map that the constructor builds are a
function of the logical schema that `modelSchema` yields. -/
theorem Schema.new_model_eq (config config' : Config)
    (h : modelSchema config = modelSchema config') :
    (Schema.new config).map (fun s => (s._modelSchema, s._modelDatatypes)) =
      (Schema.new config').map (fun s => (s._modelSchema, s._modelDatatypes)) := by
  unfold Schema.new
  simp only
  rw [modelSchema_validate, modelSchema_validate, h]
  cases modelSchema config' with
  | error e => rfl
  | ok model =>
    simp only
    cases parseDynamoTypes model.describe with
    | error e => rfl
    | ok dt => rfl

/-- C18: for every config in which `timestamps` is false or left out, no
timestamp field is injected whatever `createdAt` and `updatedAt` are: the
logical schema is the one built from `schema` alone, and the logical schema
and the type map are those of the same config with `createdAt` and `updatedAt`
removed. -/
theorem timestamps_off_ignores_names (config : Config)
    (h : config.timestamps = none ∨ config.timestamps = some false) :
    (∀ s, Schema.new config = .ok s → baseModelSchema config.schema = .ok s._modelSchema) ∧
    (Schema.new config).map (fun s => (s._modelSchema, s._modelDatatypes)) =
      (Schema.new { config with createdAt := .absent, updatedAt := .absent }).map
        (fun s => (s._modelSchema, s._modelDatatypes)) := by
  constructor
  · intro s hs
    rw [← modelSchema_of_timestamps_off config h]
    exact (Schema.new_fields config s hs).1
  · apply Schema.new_model_eq
    rw [modelSchema_of_timestamps_off config h,
      modelSchema_of_timestamps_off { config with createdAt := .absent, updatedAt := .absent } h]

theorem timestamps_off_ignores_names_witness :
    (Schema.new sampleDisabled).map (fun s => (s._modelSchema, s._modelDatatypes)) =
      (Schema.new { sampleDisabled with createdAt := .absent, updatedAt := .absent }).map
        (fun s => (s._modelSchema, s._modelDatatypes)) :=
  (timestamps_off_ignores_names sampleDisabled (Or.inr rfl)).2

/-! ## Claims about the model registry -/

theorem dynogels.model_lookup (models : List (String × JsVal)) (name : String) :
    dynogels.model models name .undefined =
      (models, if (readModel models name).truthy then readModel models name else .null) := rfl

theorem dynogels.model_register (models : List (String × JsVal)) (name : String) (m : JsVal)
    (hm : m.truthy = true) : (dynogels.model models name m).1 = setProp name m models := by
  simp only [dynogels.model, hm, if_true, internals.addModel]

/-- C19: right after `dynogels.reset()` the call `dynogels.model('constructor')`
returns the function inherited from `Object.prototype`, not `null`.  For the
names that `Object.prototype` does not hold the lookup after `reset` returns
`null`; after `dynogels.model(name, m)` with a truthy `m`, under a name other
than `__proto__`, the lookup of `name` returns `m` and the lookup of any other
name returns what it returned before; and `dynogels.model(name, m)` with a
falsy `m` leaves the registry as it was. -/
theorem registry_inherited_names :
    (dynogels.model dynogels.reset "constructor" .undefined).2 = .func 1 ∧
    (∀ name, name ∉ keysOf objectPrototype →
      (dynogels.model dynogels.reset name .undefined).2 = .null) ∧
    (∀ models name m, m.truthy = true → name ≠ "__proto__" →
      (dynogels.model (dynogels.model models name m).1 name .undefined).2 = m) ∧
    (∀ models name m other, m.truthy = true → name ≠ "__proto__" → other ≠ name →
      (dynogels.model (dynogels.model models name m).1 other .undefined).2 =
        (dynogels.model models other .undefined).2) ∧
    (∀ models name m, m.truthy = false → (dynogels.model models name m).1 = models) := by
  refine ⟨rfl, ?_, ?_, ?_, ?_⟩
  · intro name hname
    have h1 : lookup name objectPrototype = none := (lookup_eq_none_iff _ _).mpr hname
    have hr : readModel dynogels.reset name = .undefined := by
      have h0 : lookup name dynogels.reset = none := rfl
      unfold readModel
      rw [h0, h1]
      rfl
    rw [dynogels.model_lookup, hr]
    rfl
  · intro models name m hm _
    rw [dynogels.model_lookup, dynogels.model_register models name m hm]
    have hr : readModel (setProp name m models) name = m := by
      simp only [readModel, lookup_setProp_self]
    simp only [hr, hm, if_true]
  · intro models name m other hm _ hne
    rw [dynogels.model_lookup, dynogels.model_lookup, dynogels.model_register models name m hm]
    have hr : readModel (setProp name m models) other = readModel models other := by
      simp only [readModel, lookup_setProp_of_ne _ _ _ _ (Ne.symm hne)]
    simp only [hr]
  · intro models name m hm
    simp only [dynogels.model, hm, Bool.false_eq_true, if_false]

end Dynogels
